import Mathlib

/-!
Verification of the fast-field codec dispatch layer and the segment metadata
record of the `tantivy-tokenizer` repository.

The two source files under verification are:
* `src/fastfield/reader.rs` — the `DynamicFastFieldReader` dispatch enum, the
  `open` / `open_from_id` framing protocol, the `FastFieldReaderCodecWrapper`
  and the in-memory `From<Vec<Item>>` construction path;
* `src/core/segment_meta.rs` — the `SegmentMeta` record.

The concrete codec implementations (`BitpackedCodec`, `LinearCodec`,
`BlockwiseLinearCodec`, the GCD wrapper internals, `FastFieldCodecType`
serialization, the `FastValue` trait and the write pipeline) live in crates
that are not part of this repository's sources; they are modelled from the
specification's §3, §4 and §6, as marked on each such definition.

Byte regions are modelled as `List Nat` of byte values; `u64` quantities are
`Nat` with explicit `< 2 ^ 64` side conditions where the width matters.
-/

/-- Error type of the open path. `dataCorruption` models
`tantivy::error::DataCorruption` (carrying its diagnostic message) and
`invalidData` models the io-style errors returned for truncated or
unrecognized framing. -/
inductive TvError where
  | dataCorruption : String → TvError
  | invalidData : String → TvError
deriving DecidableEq, Repr

/-- Little-endian byte serialization of a natural number into `len` bytes
(truncating above `256 ^ len`). -/
def natToBytesLE : Nat → Nat → List Nat
  | 0, _ => []
  | len + 1, v => v % 256 :: natToBytesLE len (v / 256)

/-- Little-endian byte deserialization. -/
def bytesToNatLE : List Nat → Nat
  | [] => 0
  | b :: bs => b + 256 * bytesToNatLE bs

/-- Reads exactly `k` bytes from the front of a region, returning them and the
remaining bytes; fails on truncated input. -/
def readN (k : Nat) (bs : List Nat) : Except TvError (List Nat × List Nat) :=
  if k ≤ bs.length then .ok (bs.take k, bs.drop k) else .error (.invalidData "unexpected end of data")

/-- Reads a little-endian unsigned integer stored on `k` bytes. -/
def readUIntLE (k : Nat) (bs : List Nat) : Except TvError (Nat × List Nat) :=
  (readN k bs).map (fun p => (bytesToNatLE p.1, p.2))

/-- Fuel-based bit-width computation: `bitWidthAux fuel n` is the number of
bits needed to represent `n`, provided `n ≤ fuel`. -/
def bitWidthAux : Nat → Nat → Nat
  | 0, _ => 0
  | fuel + 1, n => if n = 0 then 0 else bitWidthAux fuel (n / 2) + 1

/-- Number of bits needed to represent `n`, i.e. `ceil (log2 (n + 1))`:
`bitWidth 0 = 0` and `n < 2 ^ bitWidth n`. -/
def bitWidth (n : Nat) : Nat := bitWidthAux n n

/-- Minimum of a list of naturals (`0` on the empty list). -/
def listMin : List Nat → Nat
  | [] => 0
  | [v] => v
  | v :: vs => min v (listMin vs)

/-- Maximum of a list of naturals (`0` on the empty list). -/
def listMax : List Nat → Nat
  | [] => 0
  | [v] => v
  | v :: vs => max v (listMax vs)

/-- Minimum of a list of integers (`0` on the empty list). -/
def intListMin : List Int → Int
  | [] => 0
  | [v] => v
  | v :: vs => min v (intListMin vs)

/-- Maximum of a list of integers (`0` on the empty list). -/
def intListMax : List Int → Int
  | [] => 0
  | [v] => v
  | v :: vs => max v (intListMax vs)

/-- Greatest common divisor of all the values of a list (`0` on the empty
list and on all-zero lists). -/
def listGcd : List Nat → Nat
  | [] => 0
  | v :: vs => Nat.gcd v (listGcd vs)

/-- Concatenation of fixed-width digits into one natural number: digit `i`
occupies bits `[i * w, (i + 1) * w)` of the result. This is the bit-packed
sequence of §4.3, values concatenated without alignment. -/
def packDigits (w : Nat) : List Nat → Nat
  | [] => 0
  | d :: ds => d + 2 ^ w * packDigits w ds

/-- Reads `w` bits starting at bit offset `off` from a little-endian byte
region (the read may span byte boundaries). -/
def bitsAt (bytes : List Nat) (off w : Nat) : Nat :=
  bytesToNatLE bytes / 2 ^ off % 2 ^ w

/-- Fuel-based partition of a list into consecutive chunks of `sz` elements
(the final chunk possibly shorter). -/
def chunksAux (sz : Nat) : Nat → List Nat → List (List Nat)
  | 0, _ => []
  | _, [] => []
  | fuel + 1, l => l.take sz :: chunksAux sz fuel (l.drop sz)

/-- Partition of a list into consecutive chunks of `sz` elements. -/
def chunksOf (sz : Nat) (l : List Nat) : List (List Nat) :=
  chunksAux sz l.length l

/-- Boolean test that a list of naturals is non-decreasing. -/
def nondecreasing : List Nat → Bool
  | [] => true
  | [_] => true
  | a :: b :: t => decide (a ≤ b) && nondecreasing (b :: t)

/-- The closed codec tag enumeration of `fastfield_codecs::FastFieldCodecType`:
`Bitpacked`, `Linear`, `BlockwiseLinear`, `Gcd` (spec §3, "Codec tag"). -/
inductive FastFieldCodecType where
  | Bitpacked
  | Linear
  | BlockwiseLinear
  | Gcd
deriving DecidableEq, Repr

/-- Byte code persisted for each codec tag. -/
def FastFieldCodecType.toCode : FastFieldCodecType → Nat
  | .Bitpacked => 1
  | .Linear => 2
  | .BlockwiseLinear => 3
  | .Gcd => 4

/-- Inverse of `FastFieldCodecType.toCode` on valid byte codes. -/
def FastFieldCodecType.fromCode : Nat → Option FastFieldCodecType
  | 1 => some .Bitpacked
  | 2 => some .Linear
  | 3 => some .BlockwiseLinear
  | 4 => some .Gcd
  | _ => none

/-- Modelled from the spec: `FastFieldCodecType::serialize` is not under
`src/`; the tag is "persisted as the first unit of every encoded region"
(§3), one byte here. -/
def FastFieldCodecType.serialize (t : FastFieldCodecType) : List Nat :=
  [t.toCode]

/-- Modelled from the spec: `FastFieldCodecType::deserialize` is not under
`src/`; reads the one-byte tag from the front of the region, consuming it,
and fails on an unrecognized tag value or empty input (§7, data corruption
"unrecognized tag value"). -/
def FastFieldCodecType.deserialize : List Nat → Except TvError (FastFieldCodecType × List Nat)
  | [] => .error (.invalidData "unexpected end of data")
  | b :: rest =>
    match FastFieldCodecType.fromCode b with
    | some t => .ok (t, rest)
    | none => .error (.invalidData "unknown codec id")

/-- The uniform column read contract (spec §4.2, `fastfield_codecs::Column`):
value at an ordinal, minimum, maximum, count. -/
class Column (Self : Type) (Item : outParam Type) where
  get_val : Self → Nat → Item
  min_value : Self → Item
  max_value : Self → Item
  num_vals : Self → Nat

export Column (get_val min_value max_value num_vals)

/-- Modelled from the spec: the bitpacked codec reader (§4.3, §6). Holds the
header fields `Min`, `BitWidth`, `NumVals` and the packed payload bytes. -/
structure BitpackedReader where
  min_value_u64 : Nat
  bit_width : Nat
  num_vals_u64 : Nat
  data : List Nat
deriving DecidableEq, Repr

/-- Modelled from the spec: bitpacked decode (§4.3) — read `bit_width` bits at
bit offset `idx * bit_width` and add `Min`; with `bit_width = 0` no bits are
read and `Min` is returned unconditionally. `max_value` is the largest value
the header admits, `Min + 2 ^ BitWidth - 1` (a loose upper bound, §3). -/
instance : Column BitpackedReader Nat where
  get_val r idx := r.min_value_u64 + bitsAt r.data (idx * r.bit_width) r.bit_width
  min_value r := r.min_value_u64
  max_value r := r.min_value_u64 + (2 ^ r.bit_width - 1)
  num_vals r := r.num_vals_u64

/-- Modelled from the spec: `BitpackedCodec::open_from_bytes` parses
`Min(u64) BitWidth(u8) NumVals(u64) PackedBits` (§6). -/
def BitpackedCodec.open_from_bytes (bs : List Nat) : Except TvError BitpackedReader := do
  let (mn, bs) ← readUIntLE 8 bs
  let (w, bs) ← readUIntLE 1 bs
  let (n, bs) ← readUIntLE 8 bs
  .ok ⟨mn, w, n, bs⟩

/-- Offset added to the (possibly negative) residual shift so it can be stored
as an unsigned field; the stored value is `shift + 2 ^ 191` on 24 bytes. -/
def SHIFT_OFFSET : Int := 2 ^ 191

/-- Modelled from the spec: the per-block/global linear fit parameters
(§4.4 "fit parameters, residual bit width"): the line is fit through the
first and the last value; `shift_enc` stores the non-negativity shift applied
to the signed residuals before bitpacking. -/
structure LinBlock where
  first_value : Nat
  last_value : Nat
  shift_enc : Nat
  bit_width : Nat
deriving DecidableEq, Repr

/-- Modelled from the spec: the linear interpolation formula (§4.4) — the
line through the points `(0, first)` and `(n - 1, last)`, evaluated at `i`. -/
def linFitted (first last n i : Nat) : Int :=
  (first : Int) + ((last : Int) - (first : Int)) * (i : Int) / ((n : Int) - 1)

/-- Modelled from the spec: linear decode (§4.4) —
`get_val idx = round(fitted idx) + residual idx`, where the stored residual is
unshifted by `shift_enc` and read from the bitpacked residual region. -/
def decodeBlockVal (blk : LinBlock) (n : Nat) (data : List Nat) (i : Nat) : Nat :=
  (linFitted blk.first_value blk.last_value n i
    + ((blk.shift_enc : Int) - SHIFT_OFFSET)
    + (bitsAt data (i * blk.bit_width) blk.bit_width : Int)).toNat

/-- Modelled from the spec: the linear codec reader (§4.4, §6): fit
parameters, count, residual bit width, explicitly stored minimum and maximum,
and the bitpacked residuals. -/
structure LinearReader where
  params : LinBlock
  num_vals_u64 : Nat
  min_value_u64 : Nat
  max_value_u64 : Nat
  data : List Nat
deriving DecidableEq, Repr

/-- Modelled from the spec: linear decode and the explicitly stored bounds
(§4.4: they are stored, not derived from the fit). -/
instance : Column LinearReader Nat where
  get_val r idx := decodeBlockVal r.params r.num_vals_u64 r.data idx
  min_value r := r.min_value_u64
  max_value r := r.max_value_u64
  num_vals r := r.num_vals_u64

/-- Modelled from the spec: `LinearCodec::open_from_bytes` parses
`FitParams NumVals ResidualBitWidth Min Max PackedResiduals` (§6), with
`FitParams = first(u64) last(u64) shift(u192)`. -/
def LinearCodec.open_from_bytes (bs : List Nat) : Except TvError LinearReader := do
  let (first, bs) ← readUIntLE 8 bs
  let (last, bs) ← readUIntLE 8 bs
  let (shift, bs) ← readUIntLE 24 bs
  let (n, bs) ← readUIntLE 8 bs
  let (w, bs) ← readUIntLE 1 bs
  let (mn, bs) ← readUIntLE 8 bs
  let (mx, bs) ← readUIntLE 8 bs
  .ok ⟨⟨first, last, shift, w⟩, n, mn, mx, bs⟩

/-- The fixed number of values per block of the blockwise-linear codec
(spec §4.5, "a chosen constant, e.g. 512 values per block"). -/
def BLOCK_SIZE : Nat := 512

/-- Modelled from the spec: the blockwise-linear codec reader (§4.5, §6):
block size, count, explicitly stored bounds, and for each block its fit
parameters paired with its bitpacked residual bytes. -/
structure BlockwiseLinearReader where
  block_size : Nat
  num_vals_u64 : Nat
  min_value_u64 : Nat
  max_value_u64 : Nat
  blocks : List (LinBlock × List Nat)
deriving DecidableEq, Repr

/-- Number of values held by block `b` of a column of `n` values split into
blocks of `sz`: `sz` for the full blocks, the remainder for the final one. -/
def blockLen (sz n b : Nat) : Nat := min sz (n - sz * b)

/-- Modelled from the spec: blockwise-linear decode (§4.5) — `block = idx / block_size`,
`offset = idx % block_size`, then that block's fit formula plus its residual
at `offset`. -/
instance : Column BlockwiseLinearReader Nat where
  get_val r idx :=
    let b := idx / r.block_size
    let p := r.blocks.getD b (⟨0, 0, 0, 0⟩, [])
    decodeBlockVal p.1 (blockLen r.block_size r.num_vals_u64 b) p.2 (idx % r.block_size)
  min_value r := r.min_value_u64
  max_value r := r.max_value_u64
  num_vals r := r.num_vals_u64

/-- Parses one per-block header `first(u64) last(u64) shift(u192) bitwidth(u8)`. -/
def readBlockHeader (bs : List Nat) : Except TvError (LinBlock × List Nat) := do
  let (first, bs) ← readUIntLE 8 bs
  let (last, bs) ← readUIntLE 8 bs
  let (shift, bs) ← readUIntLE 24 bs
  let (w, bs) ← readUIntLE 1 bs
  .ok (⟨first, last, shift, w⟩, bs)

/-- Parses `k` consecutive per-block headers. -/
def readBlockHeaders : Nat → List Nat → Except TvError (List LinBlock × List Nat)
  | 0, bs => .ok ([], bs)
  | k + 1, bs => do
    let (h, bs) ← readBlockHeader bs
    let (hs, bs) ← readBlockHeaders k bs
    .ok (h :: hs, bs)

/-- Splits off each block's packed residual bytes: block of header `h` holding
`len` values occupies `(len * h.bit_width + 7) / 8` bytes. -/
def readBlockDatas : List (LinBlock × Nat) → List Nat → Except TvError (List (LinBlock × List Nat) × List Nat)
  | [], bs => .ok ([], bs)
  | (h, len) :: hs, bs => do
    let (d, bs) ← readN ((len * h.bit_width + 7) / 8) bs
    let (ds, bs) ← readBlockDatas hs bs
    .ok ((h, d) :: ds, bs)

/-- Modelled from the spec: `BlockwiseLinearCodec::open_from_bytes` parses
`BlockSize(u32) NumVals(u64) Min(u64) Max(u64) PerBlockHeader* PackedResidualBlocks`
(§6); the number of blocks and each block's residual length are derived from
`NumVals` and `BlockSize`. -/
def BlockwiseLinearCodec.open_from_bytes (bs : List Nat) : Except TvError BlockwiseLinearReader := do
  let (sz, bs) ← readUIntLE 4 bs
  let (n, bs) ← readUIntLE 8 bs
  let (mn, bs) ← readUIntLE 8 bs
  let (mx, bs) ← readUIntLE 8 bs
  let k := if sz = 0 then 0 else (n + sz - 1) / sz
  let (hs, bs) ← readBlockHeaders k bs
  let lens := (List.range k).map (fun b => blockLen sz n b)
  let (blocks, bs) ← readBlockDatas (hs.zip lens) bs
  let _ := bs
  .ok ⟨sz, n, mn, mx, blocks⟩

/-- The GCD wrapper reader `GCDReader<C>` around an inner codec reader. -/
structure GCDReader (C : Type) where
  gcd : Nat
  inner : C
deriving DecidableEq, Repr

/-- Modelled from the spec: GCD decode (§4.6) — every decoded value is
`inner.get_val(i) * divisor`; the bounds scale the same way and the count is
the inner count. -/
instance {C : Type} [Column C Nat] : Column (GCDReader C) Nat where
  get_val r idx := r.gcd * get_val r.inner idx
  min_value r := r.gcd * min_value r.inner
  max_value r := r.gcd * max_value r.inner
  num_vals r := num_vals r.inner

/-- Modelled from the spec: `open_gcd_from_bytes::<C>` (§4.6, §6) — after the
dispatch layer has consumed the nested inner tag, the wrapper's payload is
`Divisor(u64)` followed by the inner codec payload. -/
def open_gcd_from_bytes {C : Type} (openInner : List Nat → Except TvError C)
    (bs : List Nat) : Except TvError (GCDReader C) := do
  let (g, bs) ← readUIntLE 8 bs
  let inner ← openInner bs
  .ok ⟨g, inner⟩

/-- Modelled from the spec: the `FastValue` value-mapping trait (§4.1) — a
total, order-preserving bijection between the domain type and `u64`;
`from_u64` inverts `to_u64` and preserves order. -/
class FastValue (Item : Type) [LinearOrder Item] where
  to_u64 : Item → Nat
  from_u64 : Nat → Item
  from_to : ∀ x : Item, from_u64 (to_u64 x) = x
  from_u64_mono : ∀ a b : Nat, a ≤ b → from_u64 a ≤ from_u64 b

/-- The identity value mapping on unsigned integers (the `u64` instance). -/
instance : FastValue Nat where
  to_u64 x := x
  from_u64 x := x
  from_to _ := rfl
  from_u64_mono _ _ h := h

/-- `FastFieldReaderCodecWrapper<Item, CodecReader>`: holds the inner codec
reader (the `PhantomData` marker of the source has no runtime content). -/
structure FastFieldReaderCodecWrapper (Item : Type) (CodecReader : Type) where
  reader : CodecReader
deriving DecidableEq, Repr

/-- The `From<CodecReader>` conversion into the wrapper. -/
def FastFieldReaderCodecWrapper.ofReader {Item C : Type} (r : C) :
    FastFieldReaderCodecWrapper Item C := ⟨r⟩

/-- `FastFieldReaderCodecWrapper::get_u64`: reads the inner `u64` value and
maps it into the domain type. -/
def FastFieldReaderCodecWrapper.get_u64 {Item C : Type} [LinearOrder Item] [FastValue Item]
    [Column C Nat] (w : FastFieldReaderCodecWrapper Item C) (idx : Nat) : Item :=
  FastValue.from_u64 (get_val w.reader idx)

/-- The `Column<Item>` implementation of the wrapper: all four operations
apply the domain mapping to the inner `u64` reader's results
(`num_vals` passes the count through unchanged). -/
instance {Item C : Type} [LinearOrder Item] [FastValue Item] [Column C Nat] :
    Column (FastFieldReaderCodecWrapper Item C) Item where
  get_val w idx := w.get_u64 idx
  min_value w := FastValue.from_u64 (min_value w.reader)
  max_value w := FastValue.from_u64 (max_value w.reader)
  num_vals w := num_vals w.reader

/-- `DynamicFastFieldReader<Item>`: the closed tagged union over the six
concrete (codec × GCD-wrapped-or-not) reader combinations. -/
inductive DynamicFastFieldReader (Item : Type) where
  | Bitpacked : FastFieldReaderCodecWrapper Item BitpackedReader → DynamicFastFieldReader Item
  | Linear : FastFieldReaderCodecWrapper Item LinearReader → DynamicFastFieldReader Item
  | BlockwiseLinear : FastFieldReaderCodecWrapper Item BlockwiseLinearReader → DynamicFastFieldReader Item
  | BitpackedGCD : FastFieldReaderCodecWrapper Item (GCDReader BitpackedReader) → DynamicFastFieldReader Item
  | LinearGCD : FastFieldReaderCodecWrapper Item (GCDReader LinearReader) → DynamicFastFieldReader Item
  | BlockwiseLinearGCD : FastFieldReaderCodecWrapper Item (GCDReader BlockwiseLinearReader) → DynamicFastFieldReader Item
deriving DecidableEq, Repr

/-- `DynamicFastFieldReader::open_from_id`: branches on the codec tag; the
three plain tags construct the matching concrete reader directly from the
bytes; the `Gcd` tag reads the nested inner tag and dispatches on it,
rejecting a nested `Gcd` as data corruption. -/
def DynamicFastFieldReader.open_from_id {Item : Type} (bytes : List Nat)
    (codec_type : FastFieldCodecType) : Except TvError (DynamicFastFieldReader Item) := do
  let reader ←
    match codec_type with
    | FastFieldCodecType.Bitpacked => do
      let r ← BitpackedCodec.open_from_bytes bytes
      .ok (DynamicFastFieldReader.Bitpacked (FastFieldReaderCodecWrapper.ofReader r))
    | FastFieldCodecType.Linear => do
      let r ← LinearCodec.open_from_bytes bytes
      .ok (DynamicFastFieldReader.Linear (FastFieldReaderCodecWrapper.ofReader r))
    | FastFieldCodecType.BlockwiseLinear => do
      let r ← BlockwiseLinearCodec.open_from_bytes bytes
      .ok (DynamicFastFieldReader.BlockwiseLinear (FastFieldReaderCodecWrapper.ofReader r))
    | FastFieldCodecType.Gcd => do
      let (codec_type, bytes) ← FastFieldCodecType.deserialize bytes
      match codec_type with
      | FastFieldCodecType.Bitpacked => do
        let r ← open_gcd_from_bytes BitpackedCodec.open_from_bytes bytes
        .ok (DynamicFastFieldReader.BitpackedGCD (FastFieldReaderCodecWrapper.ofReader r))
      | FastFieldCodecType.Linear => do
        let r ← open_gcd_from_bytes LinearCodec.open_from_bytes bytes
        .ok (DynamicFastFieldReader.LinearGCD (FastFieldReaderCodecWrapper.ofReader r))
      | FastFieldCodecType.BlockwiseLinear => do
        let r ← open_gcd_from_bytes BlockwiseLinearCodec.open_from_bytes bytes
        .ok (DynamicFastFieldReader.BlockwiseLinearGCD (FastFieldReaderCodecWrapper.ofReader r))
      | FastFieldCodecType.Gcd =>
        .error (TvError.dataCorruption
          "Gcd codec wrapped into another gcd codec. This combination is not allowed.")
  .ok reader

/-- `DynamicFastFieldReader::open`: reads the outer codec tag from the front
of the (already fully read) byte region, then delegates to `open_from_id`
with the remaining bytes. -/
def DynamicFastFieldReader.«open» {Item : Type} (file : List Nat) :
    Except TvError (DynamicFastFieldReader Item) := do
  let (codec_type, bytes) ← FastFieldCodecType.deserialize file
  DynamicFastFieldReader.open_from_id bytes codec_type

/-- The `Column<Item>` implementation of `DynamicFastFieldReader`: each of the
four operations is a flat branch over the six variants, delegating to the
active variant's inner reader. -/
instance {Item : Type} [LinearOrder Item] [FastValue Item] :
    Column (DynamicFastFieldReader Item) Item where
  get_val r idx :=
    match r with
    | .Bitpacked reader => get_val reader idx
    | .Linear reader => get_val reader idx
    | .BlockwiseLinear reader => get_val reader idx
    | .BitpackedGCD reader => get_val reader idx
    | .LinearGCD reader => get_val reader idx
    | .BlockwiseLinearGCD reader => get_val reader idx
  min_value r :=
    match r with
    | .Bitpacked reader => min_value reader
    | .Linear reader => min_value reader
    | .BlockwiseLinear reader => min_value reader
    | .BitpackedGCD reader => min_value reader
    | .LinearGCD reader => min_value reader
    | .BlockwiseLinearGCD reader => min_value reader
  max_value r :=
    match r with
    | .Bitpacked reader => max_value reader
    | .Linear reader => max_value reader
    | .BlockwiseLinear reader => max_value reader
    | .BitpackedGCD reader => max_value reader
    | .LinearGCD reader => max_value reader
    | .BlockwiseLinearGCD reader => max_value reader
  num_vals r :=
    match r with
    | .Bitpacked reader => num_vals reader
    | .Linear reader => num_vals reader
    | .BlockwiseLinear reader => num_vals reader
    | .BitpackedGCD reader => num_vals reader
    | .LinearGCD reader => num_vals reader
    | .BlockwiseLinearGCD reader => num_vals reader

/-- Modelled from the spec: the bitpacked encoder (§4.3) — compute the
minimum and maximum, `bit_width = ceil(log2(max - min + 1))` (`0` when all
values are equal), and store `Min`, `BitWidth`, `NumVals` followed by the
bit-packed `(value - min)` sequence. -/
def bitpackedEncode (vals : List Nat) : List Nat :=
  let mn := listMin vals
  let w := bitWidth (listMax vals - mn)
  let n := vals.length
  let digits := vals.map (fun v => v - mn)
  natToBytesLE 8 mn ++ [w] ++ natToBytesLE 8 n
    ++ natToBytesLE ((n * w + 7) / 8) (packDigits w digits)

/-- The list of signed residuals of a value block against its linear fit. -/
def blockResiduals (vs : List Nat) : List Int :=
  (List.range vs.length).map
    (fun i => (vs.getD i 0 : Int) - linFitted (vs.headD 0) (vs.getLastD 0) vs.length i)

/-- Modelled from the spec: the linear fit-and-residual encoder core (§4.4) —
fit the line through the first and last value, compute the signed residuals,
shift them to a non-negative range and bitpack them; returns the fit
parameters and the packed residual bytes. -/
def encodeBlock (vs : List Nat) : LinBlock × List Nat :=
  let n := vs.length
  let rs := blockResiduals vs
  let mnR := intListMin rs
  let w := bitWidth (intListMax rs - mnR).toNat
  let digits := rs.map (fun r => (r - mnR).toNat)
  (⟨vs.headD 0, vs.getLastD 0, (mnR + SHIFT_OFFSET).toNat, w⟩,
    natToBytesLE ((n * w + 7) / 8) (packDigits w digits))

/-- The residual shift of a value block: the minimum of its signed residuals. -/
def blockMinR (vs : List Nat) : Int := intListMin (blockResiduals vs)

/-- The residual bit width of a value block. -/
def blockW (vs : List Nat) : Nat :=
  bitWidth (intListMax (blockResiduals vs) - blockMinR vs).toNat

/-- The shifted, non-negative residual digits of a value block. -/
def blockDigits (vs : List Nat) : List Nat :=
  (blockResiduals vs).map (fun r => (r - blockMinR vs).toNat)

/-- Serialized form of a linear fit header:
`first(u64) last(u64) shift(u192) bitwidth(u8)`. -/
def blockHeaderBytes (blk : LinBlock) : List Nat :=
  natToBytesLE 8 blk.first_value ++ natToBytesLE 8 blk.last_value
    ++ natToBytesLE 24 blk.shift_enc ++ [blk.bit_width]

/-- Modelled from the spec: the linear codec encoder (§4.4, §6) — emits
`FitParams NumVals ResidualBitWidth Min Max PackedResiduals`, the bounds
stored explicitly from the value set. -/
def linearEncode (vals : List Nat) : List Nat :=
  let (blk, data) := encodeBlock vals
  natToBytesLE 8 blk.first_value ++ natToBytesLE 8 blk.last_value
    ++ natToBytesLE 24 blk.shift_enc ++ natToBytesLE 8 vals.length
    ++ [blk.bit_width] ++ natToBytesLE 8 (listMin vals) ++ natToBytesLE 8 (listMax vals)
    ++ data

/-- Modelled from the spec: the blockwise-linear codec encoder (§4.5, §6) —
partition into `BLOCK_SIZE`-value blocks, run the linear fit-and-residual
algorithm independently per block, and emit
`BlockSize NumVals Min Max PerBlockHeader* PackedResidualBlocks`. -/
def blockwiseEncode (vals : List Nat) : List Nat :=
  let encoded := (chunksOf BLOCK_SIZE vals).map encodeBlock
  natToBytesLE 4 BLOCK_SIZE ++ natToBytesLE 8 vals.length
    ++ natToBytesLE 8 (listMin vals) ++ natToBytesLE 8 (listMax vals)
    ++ (encoded.map (fun e => blockHeaderBytes e.1)).flatten
    ++ (encoded.map (fun e => e.2)).flatten

/-- The divisor factored out by the GCD meta-codec (§4.6): the greatest
common divisor of all the values, or `1` when there is none (empty or
all-zero column). -/
def gcdDivisor (vals : List Nat) : Nat :=
  if listGcd vals = 0 then 1 else listGcd vals

/-- The choice of concrete codec the write pipeline makes for a column. -/
inductive InnerCodecChoice where
  | bitpacked
  | linear
  | blockwiseLinear
deriving DecidableEq, Repr

/-- A full codec selection: a concrete codec, optionally behind the GCD
meta-codec — the six combinations of the reader variant. -/
structure CodecChoice where
  inner : InnerCodecChoice
  useGcd : Bool
deriving DecidableEq, Repr

/-- The codec tag persisted for an inner codec choice. -/
def InnerCodecChoice.tag : InnerCodecChoice → FastFieldCodecType
  | .bitpacked => .Bitpacked
  | .linear => .Linear
  | .blockwiseLinear => .BlockwiseLinear

/-- Payload emitted by an inner codec's encoder. -/
def innerEncode : InnerCodecChoice → List Nat → List Nat
  | .bitpacked => bitpackedEncode
  | .linear => linearEncode
  | .blockwiseLinear => blockwiseEncode

/-- Modelled from the spec: the framed output of the write pipeline for one
column (§2 data flow, §4.6, §6): `Tag Payload`, where a GCD-wrapped column is
`Gcd-Tag InnerTag Divisor(u64) InnerPayload(quotients)` and a plain column is
`InnerTag InnerPayload(values)`. -/
def serializeWith (c : CodecChoice) (vals : List Nat) : List Nat :=
  if c.useGcd then
    let g := gcdDivisor vals
    FastFieldCodecType.serialize .Gcd ++ FastFieldCodecType.serialize c.inner.tag
      ++ natToBytesLE 8 g ++ innerEncode c.inner (vals.map (fun v => v / g))
  else
    FastFieldCodecType.serialize c.inner.tag ++ innerEncode c.inner vals

/-- Modelled from the spec: the standard write pipeline's framing of one
column (§2: the pipeline "chooses a codec per column", the choice itself
being out of scope). This model picks the bitpacked codec, behind the GCD
wrapper exactly when the values share a nontrivial divisor (§4.6). -/
def serializeColumn (vals : List Nat) : List Nat :=
  serializeWith ⟨.bitpacked, decide (1 < gcdDivisor vals)⟩ vals

/-- `impl From<Vec<Item>> for DynamicFastFieldReader<Item>`: routes the
values through the standard write pipeline into a memory-backed byte sink
(`RamDirectory` plus the composite-file machinery, modelled by
`serializeColumn`) and reopens a reader from those bytes through
`DynamicFastFieldReader::open`. The source unwraps the open result; the
fallback variant of this model is proved unreachable on pipeline output. -/
def DynamicFastFieldReader.fromVec {Item : Type} [LinearOrder Item] [FastValue Item]
    (vals : List Item) : DynamicFastFieldReader Item :=
  match DynamicFastFieldReader.«open» (serializeColumn (vals.map FastValue.to_u64)) with
  | .ok r => r
  | .error _ => .Bitpacked (FastFieldReaderCodecWrapper.ofReader ⟨0, 0, 0, []⟩)

/-- Opaque segment identifier (`SegmentId`). -/
structure SegmentId where
  uuid : Nat
deriving DecidableEq, Repr

/-- `DeleteMeta`: the delete bookkeeping attached to a segment — number of
deleted documents (`u32`) and the opstamp of the last delete operation
(`u64`). -/
structure DeleteMeta where
  num_deleted_docs : Nat
  opstamp : Nat
deriving DecidableEq, Repr

/-- `SegmentMeta`: segment identifier, `max_doc` (`u32`) and optional delete
information. -/
structure SegmentMeta where
  segment_id : SegmentId
  max_doc : Nat
  deletes : Option DeleteMeta
deriving DecidableEq, Repr

/-- `SegmentMeta::new`: a segment meta with no deletes and no documents. -/
def SegmentMeta.new (segment_id : SegmentId) : SegmentMeta :=
  ⟨segment_id, 0, none⟩

/-- `SegmentMeta::num_deleted_docs`: the stored delete count when delete
information is present, `0` otherwise. -/
def SegmentMeta.num_deleted_docs (m : SegmentMeta) : Nat :=
  (m.deletes.map (fun d => d.num_deleted_docs)).getD 0

/-- Rust `u32` subtraction as used by `SegmentMeta::num_docs`: the underflow
branch (a panic in the compiled code) is modelled as `none`. -/
def u32Sub (a b : Nat) : Option Nat :=
  if b ≤ a then some (a - b) else none

/-- `SegmentMeta::num_docs`: `max_doc() - num_deleted_docs()` with unchecked
`u32` subtraction. -/
def SegmentMeta.num_docs (m : SegmentMeta) : Option Nat :=
  u32Sub m.max_doc m.num_deleted_docs

/-- `SegmentMeta::delete_opstamp`: the opstamp of the last delete operation
taken into account, when any. -/
def SegmentMeta.delete_opstamp (m : SegmentMeta) : Option Nat :=
  m.deletes.map (fun d => d.opstamp)

/-- `SegmentMeta::has_deletes`. -/
def SegmentMeta.has_deletes (m : SegmentMeta) : Bool :=
  m.deletes.isSome

/-- `SegmentMeta::set_max_doc`. -/
def SegmentMeta.set_max_doc (m : SegmentMeta) (max_doc : Nat) : SegmentMeta :=
  { m with max_doc := max_doc }

/-- `SegmentMeta::set_delete_meta`: replaces the delete information with the
given count and opstamp. -/
def SegmentMeta.set_delete_meta (m : SegmentMeta) (num_deleted_docs : Nat)
    (opstamp : Nat) : SegmentMeta :=
  { m with deletes := some ⟨num_deleted_docs, opstamp⟩ }

/-- The recorded opstamp after each application of a sequence of successive
`set_delete_meta` calls (each given a delete count and an opstamp). -/
def opstampTrace (m : SegmentMeta) : List (Nat × Nat) → List Nat
  | [] => []
  | p :: ops =>
    ((m.set_delete_meta p.1 p.2).delete_opstamp).getD 0
      :: opstampTrace (m.set_delete_meta p.1 p.2) ops

/-- The reader a byte region opens to (with an inert fallback on the error
branch; used to name concrete opened readers in closed statements). -/
def openedReader (bs : List Nat) : DynamicFastFieldReader Nat :=
  match DynamicFastFieldReader.«open» bs with
  | .ok r => r
  | .error _ => .Bitpacked (FastFieldReaderCodecWrapper.ofReader ⟨0, 0, 0, []⟩)

/-! ## Byte-serialization lemmas -/

theorem natToBytesLE_length (len v : Nat) : (natToBytesLE len v).length = len := by
  induction len generalizing v with
  | zero => rfl
  | succ k ih => simp [natToBytesLE, ih]

theorem bytesToNatLE_natToBytesLE (len v : Nat) :
    bytesToNatLE (natToBytesLE len v) = v % 256 ^ len := by
  induction len generalizing v with
  | zero => simp [natToBytesLE, bytesToNatLE, Nat.mod_one]
  | succ k ih =>
    rw [natToBytesLE, bytesToNatLE, ih, pow_succ, mul_comm (256 ^ k) 256, Nat.mod_mul]

theorem bytesToNatLE_natToBytesLE_of_lt {len v : Nat} (h : v < 256 ^ len) :
    bytesToNatLE (natToBytesLE len v) = v := by
  rw [bytesToNatLE_natToBytesLE, Nat.mod_eq_of_lt h]

theorem readN_append {k : Nat} {l : List Nat} (rest : List Nat) (h : l.length = k) :
    readN k (l ++ rest) = .ok (l, rest) := by
  subst h
  simp [readN, List.take_left, List.drop_left]

theorem readUIntLE_append {k v : Nat} (rest : List Nat) (h : v < 256 ^ k) :
    readUIntLE k (natToBytesLE k v ++ rest) = .ok (v, rest) := by
  rw [readUIntLE, readN_append rest (natToBytesLE_length k v)]
  simp [Except.map, bytesToNatLE_natToBytesLE_of_lt h]

theorem readUIntLE_one_cons (w : Nat) (rest : List Nat) :
    readUIntLE 1 (w :: rest) = .ok (w, rest) := by
  simp [readUIntLE, readN, Except.map, bytesToNatLE]

/-! ## Bit-width lemmas -/

theorem bitWidthAux_spec (fuel : Nat) : ∀ n, n ≤ fuel → n < 2 ^ bitWidthAux fuel n := by
  induction fuel with
  | zero => intro n hn; interval_cases n; simp [bitWidthAux]
  | succ k ih =>
    intro n hn
    rw [bitWidthAux]
    by_cases h0 : n = 0
    · simp [h0]
    · simp only [h0, if_false]
      have hd : n / 2 ≤ k := by omega
      have := ih (n / 2) hd
      have h2 : 2 ^ (bitWidthAux k (n / 2) + 1) = 2 * 2 ^ bitWidthAux k (n / 2) := by ring
      omega

theorem lt_two_pow_bitWidth (n : Nat) : n < 2 ^ bitWidth n :=
  bitWidthAux_spec n n le_rfl

theorem bitWidthAux_le (fuel : Nat) :
    ∀ n k, n ≤ fuel → n < 2 ^ k → bitWidthAux fuel n ≤ k := by
  induction fuel with
  | zero => intro n k _ _; simp [bitWidthAux]
  | succ m ih =>
    intro n k hn hk
    rw [bitWidthAux]
    by_cases h0 : n = 0
    · simp [h0]
    · simp only [h0, if_false]
      rcases k with _ | k'
      · omega
      · have h2 : 2 ^ (k' + 1) = 2 * 2 ^ k' := by ring
        have hd : n / 2 < 2 ^ k' := by omega
        have := ih (n / 2) k' (by omega) hd
        omega

theorem bitWidth_le_of_lt {n k : Nat} (h : n < 2 ^ k) : bitWidth n ≤ k :=
  bitWidthAux_le n n k le_rfl h

/-! ## List min / max / gcd lemmas -/

theorem listMin_le {l : List Nat} {v : Nat} (h : v ∈ l) : listMin l ≤ v := by
  induction l with
  | nil => cases h
  | cons x xs ih =>
    cases xs with
    | nil => simp at h; simp [listMin, h]
    | cons y ys =>
      rcases List.mem_cons.1 h with h1 | h2
      · subst h1; simp [listMin]
      · exact le_trans (by simp [listMin]) (ih h2)

theorem le_listMax {l : List Nat} {v : Nat} (h : v ∈ l) : v ≤ listMax l := by
  induction l with
  | nil => cases h
  | cons x xs ih =>
    cases xs with
    | nil => simp at h; simp [listMax, h]
    | cons y ys =>
      rcases List.mem_cons.1 h with h1 | h2
      · subst h1; simp [listMax]
      · exact le_trans (ih h2) (by simp [listMax])

theorem listMin_lt_of_forall {l : List Nat} {B : Nat} (hB : 0 < B)
    (h : ∀ v ∈ l, v < B) : listMin l < B := by
  induction l with
  | nil => simpa [listMin]
  | cons x xs ih =>
    cases xs with
    | nil => exact h x (by simp)
    | cons y ys =>
      have hx := h x (by simp)
      have := ih (fun v hv => h v (List.mem_cons_of_mem x hv))
      simp only [listMin]
      omega

theorem listMax_lt_of_forall {l : List Nat} {B : Nat} (hB : 0 < B)
    (h : ∀ v ∈ l, v < B) : listMax l < B := by
  induction l with
  | nil => simpa [listMax]
  | cons x xs ih =>
    cases xs with
    | nil => exact h x (by simp)
    | cons y ys =>
      have hx := h x (by simp)
      have := ih (fun v hv => h v (List.mem_cons_of_mem x hv))
      simp only [listMax]
      omega

theorem intListMin_le {l : List Int} {v : Int} (h : v ∈ l) : intListMin l ≤ v := by
  induction l with
  | nil => cases h
  | cons x xs ih =>
    cases xs with
    | nil => simp at h; simp [intListMin, h]
    | cons y ys =>
      rcases List.mem_cons.1 h with h1 | h2
      · subst h1; simp [intListMin]
      · exact le_trans (by simp [intListMin]) (ih h2)

theorem le_intListMax {l : List Int} {v : Int} (h : v ∈ l) : v ≤ intListMax l := by
  induction l with
  | nil => cases h
  | cons x xs ih =>
    cases xs with
    | nil => simp at h; simp [intListMax, h]
    | cons y ys =>
      rcases List.mem_cons.1 h with h1 | h2
      · subst h1; simp [intListMax]
      · exact le_trans (ih h2) (by simp [intListMax])

theorem le_intListMin_of_forall {l : List Int} {B : Int} (hB : B ≤ 0)
    (h : ∀ v ∈ l, B ≤ v) : B ≤ intListMin l := by
  induction l with
  | nil => simpa [intListMin]
  | cons x xs ih =>
    cases xs with
    | nil => exact h x (by simp)
    | cons y ys =>
      have hx := h x (by simp)
      have := ih (fun v hv => h v (List.mem_cons_of_mem x hv))
      simp only [intListMin]
      exact le_min hx this

theorem intListMax_le_of_forall {l : List Int} {B : Int} (hB : 0 ≤ B)
    (h : ∀ v ∈ l, v ≤ B) : intListMax l ≤ B := by
  induction l with
  | nil => simpa [intListMax]
  | cons x xs ih =>
    cases xs with
    | nil => exact h x (by simp)
    | cons y ys =>
      have hx := h x (by simp)
      have := ih (fun v hv => h v (List.mem_cons_of_mem x hv))
      simp only [intListMax]
      exact max_le hx this

theorem listGcd_dvd {l : List Nat} {v : Nat} (h : v ∈ l) : listGcd l ∣ v := by
  induction l with
  | nil => cases h
  | cons x xs ih =>
    rcases List.mem_cons.1 h with h1 | h2
    · subst h1; exact Nat.gcd_dvd_left _ _
    · exact dvd_trans (Nat.gcd_dvd_right _ _) (ih h2)

theorem listGcd_ne_zero_exists {l : List Nat} (h : listGcd l ≠ 0) :
    ∃ v ∈ l, v ≠ 0 := by
  induction l with
  | nil => simp [listGcd] at h
  | cons x xs ih =>
    by_cases hx : x = 0
    · subst hx
      have : listGcd xs ≠ 0 := by
        simpa [listGcd, Nat.gcd_comm] using h
      rcases ih this with ⟨v, hv, hv0⟩
      exact ⟨v, List.mem_cons_of_mem _ hv, hv0⟩
    · exact ⟨x, by simp, hx⟩

theorem gcdDivisor_pos (vals : List Nat) : 0 < gcdDivisor vals := by
  unfold gcdDivisor
  split
  · exact Nat.one_pos
  · omega

theorem gcdDivisor_dvd {vals : List Nat} {v : Nat} (h : v ∈ vals) :
    gcdDivisor vals ∣ v := by
  unfold gcdDivisor
  split
  · exact one_dvd v
  · exact listGcd_dvd h

theorem gcdDivisor_lt {vals : List Nat} {B : Nat} (hB : 1 < B)
    (h : ∀ v ∈ vals, v < B) : gcdDivisor vals < B := by
  unfold gcdDivisor
  split
  · omega
  · rename_i hg
    rcases listGcd_ne_zero_exists hg with ⟨v, hv, hv0⟩
    have hdvd := listGcd_dvd hv
    have := Nat.le_of_dvd (Nat.pos_of_ne_zero hv0) hdvd
    exact lt_of_le_of_lt this (h v hv)

/-! ## Digit-packing lemmas -/

theorem packDigits_lt {w : Nat} {ds : List Nat} (h : ∀ d ∈ ds, d < 2 ^ w) :
    packDigits w ds < 2 ^ (ds.length * w) := by
  induction ds with
  | nil => simp [packDigits]
  | cons d ds ih =>
    have hd := h d (by simp)
    have hds := ih (fun x hx => h x (List.mem_cons_of_mem d hx))
    rw [packDigits]
    have hpow : 2 ^ ((d :: ds).length * w) = 2 ^ w * 2 ^ (ds.length * w) := by
      rw [← pow_add]
      congr 1
      simp [List.length_cons]
      ring
    rw [hpow]
    calc d + 2 ^ w * packDigits w ds
        < 2 ^ w + 2 ^ w * packDigits w ds := by omega
      _ = 2 ^ w * (packDigits w ds + 1) := by ring
      _ ≤ 2 ^ w * 2 ^ (ds.length * w) := Nat.mul_le_mul_left _ (by omega)

theorem packDigits_extract {w : Nat} {ds : List Nat} (h : ∀ d ∈ ds, d < 2 ^ w) :
    ∀ i (hi : i < ds.length), packDigits w ds / 2 ^ (i * w) % 2 ^ w = ds[i] := by
  induction ds with
  | nil => intro i hi; cases hi
  | cons d ds ih =>
    intro i hi
    have hd := h d (by simp)
    cases i with
    | zero =>
      simp only [packDigits, Nat.zero_mul, pow_zero, Nat.div_one]
      rw [Nat.add_mul_mod_self_left, Nat.mod_eq_of_lt hd]
      rfl
    | succ j =>
      have hpow : 2 ^ ((j + 1) * w) = 2 ^ w * 2 ^ (j * w) := by
        rw [← pow_add]
        congr 1
        ring
      rw [packDigits, hpow, ← Nat.div_div_eq_div_mul,
        Nat.add_mul_div_left d _ (Nat.pos_pow_of_pos w (by norm_num)),
        Nat.div_eq_of_lt hd]
      simp only [Nat.zero_add]
      have := ih (fun x hx => h x (List.mem_cons_of_mem d hx)) j (by simpa using hi)
      simpa using this

/-! ## Definitional lemmas for the column instances -/

theorem bp_get_val_def (r : BitpackedReader) (i : Nat) :
    get_val r i = r.min_value_u64 + bitsAt r.data (i * r.bit_width) r.bit_width := rfl

theorem bp_min_value_def (r : BitpackedReader) :
    min_value r = r.min_value_u64 := rfl

theorem bp_max_value_def (r : BitpackedReader) :
    max_value r = r.min_value_u64 + (2 ^ r.bit_width - 1) := rfl

theorem bp_num_vals_def (r : BitpackedReader) :
    num_vals r = r.num_vals_u64 := rfl

theorem lin_get_val_def (r : LinearReader) (i : Nat) :
    get_val r i = decodeBlockVal r.params r.num_vals_u64 r.data i := rfl

theorem lin_min_value_def (r : LinearReader) : min_value r = r.min_value_u64 := rfl

theorem lin_max_value_def (r : LinearReader) : max_value r = r.max_value_u64 := rfl

theorem lin_num_vals_def (r : LinearReader) : num_vals r = r.num_vals_u64 := rfl

theorem Blockwiselin_get_val_def (r : BlockwiseLinearReader) (i : Nat) :
    get_val r i =
      decodeBlockVal (r.blocks.getD (i / r.block_size) (⟨0, 0, 0, 0⟩, [])).1
        (blockLen r.block_size r.num_vals_u64 (i / r.block_size))
        (r.blocks.getD (i / r.block_size) (⟨0, 0, 0, 0⟩, [])).2
        (i % r.block_size) := rfl

theorem Blockwiselin_min_value_def (r : BlockwiseLinearReader) :
    min_value r = r.min_value_u64 := rfl

theorem Blockwiselin_max_value_def (r : BlockwiseLinearReader) :
    max_value r = r.max_value_u64 := rfl

theorem Blockwiselin_num_vals_def (r : BlockwiseLinearReader) :
    num_vals r = r.num_vals_u64 := rfl

theorem gcdr_get_val_def {C : Type} [Column C Nat] (r : GCDReader C) (i : Nat) :
    get_val r i = r.gcd * get_val r.inner i := rfl

theorem gcdr_min_value_def {C : Type} [Column C Nat] (r : GCDReader C) :
    min_value r = r.gcd * min_value r.inner := rfl

theorem gcdr_max_value_def {C : Type} [Column C Nat] (r : GCDReader C) :
    max_value r = r.gcd * max_value r.inner := rfl

theorem gcdr_num_vals_def {C : Type} [Column C Nat] (r : GCDReader C) :
    num_vals r = num_vals r.inner := rfl

theorem wrap_get_val_def {Item C : Type} [LinearOrder Item]
    [FastValue Item] [Column C Nat] (w : FastFieldReaderCodecWrapper Item C) (i : Nat) :
    get_val w i = FastValue.from_u64 (get_val w.reader i) := rfl

theorem wrap_min_value_def {Item C : Type} [LinearOrder Item]
    [FastValue Item] [Column C Nat] (w : FastFieldReaderCodecWrapper Item C) :
    min_value w = FastValue.from_u64 (min_value w.reader) := rfl

theorem wrap_max_value_def {Item C : Type} [LinearOrder Item]
    [FastValue Item] [Column C Nat] (w : FastFieldReaderCodecWrapper Item C) :
    max_value w = FastValue.from_u64 (max_value w.reader) := rfl

theorem wrap_num_vals_def {Item C : Type} [LinearOrder Item]
    [FastValue Item] [Column C Nat] (w : FastFieldReaderCodecWrapper Item C) :
    num_vals w = num_vals w.reader := rfl

theorem dyn_get_val_def {Item : Type} [LinearOrder Item] [FastValue Item]
    (r : DynamicFastFieldReader Item) (i : Nat) :
    get_val r i =
      match r with
      | .Bitpacked rd => get_val rd i
      | .Linear rd => get_val rd i
      | .BlockwiseLinear rd => get_val rd i
      | .BitpackedGCD rd => get_val rd i
      | .LinearGCD rd => get_val rd i
      | .BlockwiseLinearGCD rd => get_val rd i := by
  cases r <;> rfl

theorem dyn_min_value_def {Item : Type} [LinearOrder Item] [FastValue Item]
    (r : DynamicFastFieldReader Item) :
    min_value r =
      match r with
      | .Bitpacked rd => min_value rd
      | .Linear rd => min_value rd
      | .BlockwiseLinear rd => min_value rd
      | .BitpackedGCD rd => min_value rd
      | .LinearGCD rd => min_value rd
      | .BlockwiseLinearGCD rd => min_value rd := by
  cases r <;> rfl

theorem dyn_max_value_def {Item : Type} [LinearOrder Item] [FastValue Item]
    (r : DynamicFastFieldReader Item) :
    max_value r =
      match r with
      | .Bitpacked rd => max_value rd
      | .Linear rd => max_value rd
      | .BlockwiseLinear rd => max_value rd
      | .BitpackedGCD rd => max_value rd
      | .LinearGCD rd => max_value rd
      | .BlockwiseLinearGCD rd => max_value rd := by
  cases r <;> rfl

theorem dyn_num_vals_def {Item : Type} [LinearOrder Item] [FastValue Item]
    (r : DynamicFastFieldReader Item) :
    num_vals r =
      match r with
      | .Bitpacked rd => num_vals rd
      | .Linear rd => num_vals rd
      | .BlockwiseLinear rd => num_vals rd
      | .BitpackedGCD rd => num_vals rd
      | .LinearGCD rd => num_vals rd
      | .BlockwiseLinearGCD rd => num_vals rd := by
  cases r <;> rfl

theorem bindOk {e a b : Type} (x : a) (f : a -> Except e b) :
    (Except.ok x : Except e a) >>= f = f x := rfl

/-! ## Bitpacked codec round trip -/

theorem pow256_eq_pow2 (k : Nat) : (256 : Nat) ^ k = 2 ^ (8 * k) := by
  rw [pow_mul]
  norm_num

theorem bitsAt_packed {w n : Nat} (ds : List Nat) (hlen : ds.length = n)
    (h : ∀ d ∈ ds, d < 2 ^ w) (i : Nat) (hi : i < n) :
    bitsAt (natToBytesLE ((n * w + 7) / 8) (packDigits w ds)) (i * w) w
      = ds.getD i 0 := by
  subst hlen
  have h1 := packDigits_lt h
  have h2 : ds.length * w ≤ 8 * ((ds.length * w + 7) / 8) := by omega
  have h3 : (2 : Nat) ^ (ds.length * w) ≤ 2 ^ (8 * ((ds.length * w + 7) / 8)) :=
    Nat.pow_le_pow_right (by norm_num) h2
  have h4 : (256 : Nat) ^ ((ds.length * w + 7) / 8) = 2 ^ (8 * ((ds.length * w + 7) / 8)) :=
    pow256_eq_pow2 _
  have hlt : packDigits w ds < 256 ^ ((ds.length * w + 7) / 8) := by omega
  rw [bitsAt, bytesToNatLE_natToBytesLE_of_lt hlt, List.getD_eq_getElem ds 0 hi]
  exact packDigits_extract h i hi

theorem bitpacked_roundtrip (vals : List Nat) (hv : ∀ v ∈ vals, v < 2 ^ 64)
    (hn : vals.length < 2 ^ 64) :
    ∃ r : BitpackedReader,
      BitpackedCodec.open_from_bytes (bitpackedEncode vals) = .ok r ∧
      num_vals r = vals.length ∧
      (∀ i, i < vals.length → get_val r i = vals.getD i 0) ∧
      (∀ i, i < vals.length → min_value r ≤ vals.getD i 0 ∧ vals.getD i 0 ≤ max_value r) := by
  have h2564 : (256 : Nat) ^ 8 = 2 ^ 64 := by norm_num
  have hmn : listMin vals < 256 ^ 8 := by
    rw [h2564]; exact listMin_lt_of_forall (by norm_num) hv
  have hnn : vals.length < 256 ^ 8 := by omega
  have hdig : ∀ d ∈ vals.map (fun v => v - listMin vals),
      d < 2 ^ bitWidth (listMax vals - listMin vals) := by
    intro d hd
    rcases List.mem_map.1 hd with ⟨v, hvmem, rfl⟩
    have h1 : v - listMin vals ≤ listMax vals - listMin vals :=
      Nat.sub_le_sub_right (le_listMax hvmem) _
    exact lt_of_le_of_lt h1 (lt_two_pow_bitWidth _)
  refine ⟨⟨listMin vals, bitWidth (listMax vals - listMin vals), vals.length,
    natToBytesLE ((vals.length * bitWidth (listMax vals - listMin vals) + 7) / 8)
      (packDigits (bitWidth (listMax vals - listMin vals))
        (vals.map (fun v => v - listMin vals)))⟩, ?_, rfl, ?_, ?_⟩
  · unfold BitpackedCodec.open_from_bytes bitpackedEncode
    simp only [List.append_assoc, List.cons_append, List.nil_append]
    rw [readUIntLE_append _ hmn]
    simp only [bindOk]
    rw [readUIntLE_one_cons]
    simp only [bindOk]
    rw [readUIntLE_append _ hnn]
    simp only [bindOk]
  · intro i hi
    have hbits := bitsAt_packed (w := bitWidth (listMax vals - listMin vals))
      (vals.map (fun v => v - listMin vals)) (by simp) hdig i hi
    rw [bp_get_val_def]
    simp only
    rw [hbits, List.getD_eq_getElem _ 0 (by simpa using hi), List.getElem_map,
      List.getD_eq_getElem vals 0 hi]
    have := listMin_le (List.getElem_mem hi)
    omega
  · intro i hi
    rw [bp_min_value_def, bp_max_value_def]
    simp only
    rw [List.getD_eq_getElem vals 0 hi]
    have h1 := listMin_le (List.getElem_mem (l := vals) hi)
    have h2 := le_listMax (List.getElem_mem (l := vals) hi)
    have h3 : listMax vals - listMin vals < 2 ^ bitWidth (listMax vals - listMin vals) :=
      lt_two_pow_bitWidth _
    omega

/-! ## Linear codec round trip -/

theorem headD_lt {l : List Nat} {B : Nat} (hB : 0 < B) (h : ∀ v ∈ l, v < B) :
    l.headD 0 < B := by
  cases l with
  | nil => simpa
  | cons x xs => exact h x (by simp)

theorem getLastD_lt : ∀ (l : List Nat) (d : Nat) {B : Nat}, d < B → (∀ v ∈ l, v < B) →
    l.getLastD d < B := by
  intro l
  induction l with
  | nil => intro d B hd _; simpa [List.getLastD_nil]
  | cons x xs ih =>
    intro d B hd h
    rw [List.getLastD_cons]
    exact ih x (h x (by simp)) (fun v hv => h v (List.mem_cons_of_mem x hv))

theorem blockResiduals_length (vs : List Nat) :
    (blockResiduals vs).length = vs.length := by
  simp [blockResiduals]

theorem blockResiduals_getElem (vs : List Nat) (i : Nat)
    (hi : i < (blockResiduals vs).length) :
    (blockResiduals vs)[i]
      = (vs.getD i 0 : Int) - linFitted (vs.headD 0) (vs.getLastD 0) vs.length i := by
  simp [blockResiduals]

theorem linFitted_abs_le {first last n i : Nat} (hf : first < 2 ^ 64)
    (hl : last < 2 ^ 64) (hi : i < 2 ^ 64) :
    |linFitted first last n i| ≤ 2 ^ 129 := by
  have h1 : |((last : Int) - first) * i / ((n : Int) - 1)| ≤ |((last : Int) - first) * (i : Int)| :=
    Int.abs_ediv_le_abs _ _
  have h2 : |((last : Int) - first) * (i : Int)| = |(last : Int) - first| * |(i : Int)| :=
    abs_mul _ _
  have h3 : |(last : Int) - first| ≤ 2 ^ 64 := by rw [abs_le]; omega
  have h4 : |(i : Int)| ≤ 2 ^ 64 := by rw [abs_le]; omega
  have h5 : |((last : Int) - first) * (i : Int)| ≤ 2 ^ 64 * 2 ^ 64 := by
    rw [h2]
    exact mul_le_mul h3 h4 (abs_nonneg _) (by positivity)
  have h6 : |linFitted first last n i| ≤ |(first : Int)| + |((last : Int) - first) * i / ((n : Int) - 1)| := by
    rw [linFitted]
    exact abs_add _ _
  have h7 : |(first : Int)| ≤ 2 ^ 64 := by rw [abs_le]; omega
  have h8 : (2 : Int) ^ 64 + 2 ^ 64 * 2 ^ 64 ≤ 2 ^ 129 := by norm_num
  linarith

theorem blockResiduals_abs_le {vs : List Nat} (hv : ∀ v ∈ vs, v < 2 ^ 64)
    (hn : vs.length < 2 ^ 64) :
    ∀ r ∈ blockResiduals vs, |r| ≤ 2 ^ 130 := by
  intro r hr
  rcases List.mem_map.1 hr with ⟨i, hmem, rfl⟩
  have hi : i < vs.length := by simpa using List.mem_range.1 hmem
  have hfit : |linFitted (vs.headD 0) (vs.getLastD 0) vs.length i| ≤ 2 ^ 129 :=
    linFitted_abs_le (headD_lt (by norm_num) hv) (getLastD_lt vs 0 (by norm_num) hv)
      (by omega)
  have hval : (0 : Int) ≤ (vs.getD i 0 : Int) ∧ (vs.getD i 0 : Int) ≤ 2 ^ 64 := by
    have := hv (vs.getD i 0) (by rw [List.getD_eq_getElem vs 0 hi]; exact List.getElem_mem hi)
    omega
  have habs := abs_le.1 hfit
  rw [abs_le]
  constructor <;> [linarith [habs.2, hval.1]; linarith [habs.1, hval.2]]

theorem blockMinR_lower {vs : List Nat} (hv : ∀ v ∈ vs, v < 2 ^ 64)
    (hn : vs.length < 2 ^ 64) : -(2 : Int) ^ 130 ≤ blockMinR vs := by
  apply le_intListMin_of_forall (by norm_num)
  intro r hr
  exact (abs_le.1 (blockResiduals_abs_le hv hn r hr)).1

theorem blockMaxR_upper {vs : List Nat} (hv : ∀ v ∈ vs, v < 2 ^ 64)
    (hn : vs.length < 2 ^ 64) : intListMax (blockResiduals vs) ≤ 2 ^ 130 := by
  apply intListMax_le_of_forall (by norm_num)
  intro r hr
  exact (abs_le.1 (blockResiduals_abs_le hv hn r hr)).2

theorem blockMinR_le_blockMaxR (vs : List Nat) :
    blockMinR vs ≤ intListMax (blockResiduals vs) := by
  by_cases h : blockResiduals vs = []
  · rw [blockMinR, h]
    simp [intListMin, intListMax]
  · obtain ⟨r, hr⟩ := List.exists_mem_of_ne_nil (blockResiduals vs) h
    exact le_trans (intListMin_le hr) (le_intListMax hr)

theorem blockShiftEnc_cast {vs : List Nat} (hv : ∀ v ∈ vs, v < 2 ^ 64)
    (hn : vs.length < 2 ^ 64) :
    ((blockMinR vs + SHIFT_OFFSET).toNat : Int) = blockMinR vs + SHIFT_OFFSET := by
  have := blockMinR_lower hv hn
  rw [Int.toNat_of_nonneg (by unfold SHIFT_OFFSET; omega)]

theorem blockShiftEnc_lt {vs : List Nat} (hv : ∀ v ∈ vs, v < 2 ^ 64)
    (hn : vs.length < 2 ^ 64) :
    (blockMinR vs + SHIFT_OFFSET).toNat < 2 ^ 192 := by
  have h1 := blockMinR_le_blockMaxR vs
  have h2 := blockMaxR_upper hv hn
  unfold SHIFT_OFFSET
  omega

theorem blockDigits_lt {vs : List Nat} (hv : ∀ v ∈ vs, v < 2 ^ 64)
    (hn : vs.length < 2 ^ 64) :
    ∀ d ∈ blockDigits vs, d < 2 ^ blockW vs := by
  intro d hd
  rcases List.mem_map.1 hd with ⟨r, hmem, rfl⟩
  have h1 : r ≤ intListMax (blockResiduals vs) := le_intListMax hmem
  have h2 : (r - blockMinR vs).toNat ≤ (intListMax (blockResiduals vs) - blockMinR vs).toNat :=
    Int.toNat_le_toNat (by omega)
  exact lt_of_le_of_lt h2 (lt_two_pow_bitWidth _)

theorem blockDigits_length (vs : List Nat) : (blockDigits vs).length = vs.length := by
  simp [blockDigits, blockResiduals_length]

theorem encodeBlock_fst (vs : List Nat) :
    (encodeBlock vs).1 = ⟨vs.headD 0, vs.getLastD 0,
      (blockMinR vs + SHIFT_OFFSET).toNat, blockW vs⟩ := rfl

theorem encodeBlock_snd (vs : List Nat) :
    (encodeBlock vs).2 = natToBytesLE ((vs.length * blockW vs + 7) / 8)
      (packDigits (blockW vs) (blockDigits vs)) := rfl

theorem encodeBlock_roundtrip (vs : List Nat) (hv : ∀ v ∈ vs, v < 2 ^ 64)
    (hn : vs.length < 2 ^ 64) (i : Nat) (hi : i < vs.length) :
    decodeBlockVal (encodeBlock vs).1 vs.length (encodeBlock vs).2 i = vs.getD i 0 := by
  rw [encodeBlock_fst, encodeBlock_snd, decodeBlockVal]
  simp only
  rw [bitsAt_packed (blockDigits vs) (blockDigits_length vs) (blockDigits_lt hv hn) i hi]
  have hri : i < (blockResiduals vs).length := by rw [blockResiduals_length]; exact hi
  have hdig : (blockDigits vs).getD i 0 = ((blockResiduals vs)[i] - blockMinR vs).toNat := by
    rw [blockDigits, List.getD_eq_getElem _ 0 (by simpa [blockDigits, blockResiduals_length] using hi),
      List.getElem_map]
  rw [hdig, blockShiftEnc_cast hv hn]
  have hrmem : (blockResiduals vs)[i] ∈ blockResiduals vs := List.getElem_mem hri
  have hge : blockMinR vs ≤ (blockResiduals vs)[i] := intListMin_le hrmem
  rw [Int.toNat_of_nonneg (by omega)]
  have hval := blockResiduals_getElem vs i hri
  rw [hval, linFitted]
  unfold SHIFT_OFFSET
  generalize ((vs.getLastD 0 : Int) - (vs.headD 0 : Int)) * (i : Int) / ((vs.length : Int) - 1) = F
  omega

theorem linearEncode_eq (vals : List Nat) :
    linearEncode vals = natToBytesLE 8 (vals.headD 0) ++ natToBytesLE 8 (vals.getLastD 0)
      ++ natToBytesLE 24 (blockMinR vals + SHIFT_OFFSET).toNat ++ natToBytesLE 8 vals.length
      ++ [blockW vals] ++ natToBytesLE 8 (listMin vals) ++ natToBytesLE 8 (listMax vals)
      ++ (encodeBlock vals).2 := rfl

theorem linear_roundtrip (vals : List Nat) (hv : ∀ v ∈ vals, v < 2 ^ 64)
    (hn : vals.length < 2 ^ 64) :
    ∃ r : LinearReader,
      LinearCodec.open_from_bytes (linearEncode vals) = .ok r ∧
      num_vals r = vals.length ∧
      (∀ i, i < vals.length → get_val r i = vals.getD i 0) ∧
      (∀ i, i < vals.length → min_value r ≤ vals.getD i 0 ∧ vals.getD i 0 ≤ max_value r) := by
  have h2564 : (256 : Nat) ^ 8 = 2 ^ 64 := by norm_num
  have h25624 : (256 : Nat) ^ 24 = 2 ^ 192 := by norm_num
  have hfirst : vals.headD 0 < 256 ^ 8 := by rw [h2564]; exact headD_lt (by norm_num) hv
  have hlast : vals.getLastD 0 < 256 ^ 8 := by rw [h2564]; exact getLastD_lt vals 0 (by norm_num) hv
  have hshift : (blockMinR vals + SHIFT_OFFSET).toNat < 256 ^ 24 := by
    rw [h25624]; exact blockShiftEnc_lt hv hn
  have hnn : vals.length < 256 ^ 8 := by omega
  have hmn : listMin vals < 256 ^ 8 := by rw [h2564]; exact listMin_lt_of_forall (by norm_num) hv
  have hmx : listMax vals < 256 ^ 8 := by rw [h2564]; exact listMax_lt_of_forall (by norm_num) hv
  refine ⟨⟨⟨vals.headD 0, vals.getLastD 0, (blockMinR vals + SHIFT_OFFSET).toNat, blockW vals⟩,
    vals.length, listMin vals, listMax vals, (encodeBlock vals).2⟩, ?_, rfl, ?_, ?_⟩
  · rw [linearEncode_eq]
    unfold LinearCodec.open_from_bytes
    simp only [List.append_assoc, List.cons_append, List.nil_append]
    rw [readUIntLE_append _ hfirst]
    simp only [bindOk]
    rw [readUIntLE_append _ hlast]
    simp only [bindOk]
    rw [readUIntLE_append _ hshift]
    simp only [bindOk]
    rw [readUIntLE_append _ hnn]
    simp only [bindOk]
    rw [readUIntLE_one_cons]
    simp only [bindOk]
    rw [readUIntLE_append _ hmn]
    simp only [bindOk]
    rw [readUIntLE_append _ hmx]
    simp only [bindOk]
  · intro i hi
    rw [lin_get_val_def]
    simp only
    rw [← encodeBlock_fst vals]
    exact encodeBlock_roundtrip vals hv hn i hi
  · intro i hi
    rw [lin_min_value_def, lin_max_value_def]
    simp only
    have hmem : vals.getD i 0 ∈ vals := by
      rw [List.getD_eq_getElem vals 0 hi]; exact List.getElem_mem hi
    exact ⟨listMin_le hmem, le_listMax hmem⟩

/-! ## Blockwise-linear codec round trip -/

theorem chunksAux_nil (sz : Nat) : ∀ fuel, chunksAux sz fuel [] = [] := by
  intro fuel
  cases fuel <;> rfl

theorem chunksAux_fuel (sz : Nat) (hsz : 0 < sz) :
    ∀ fuel fuel' (l : List Nat), l.length ≤ fuel → l.length ≤ fuel' →
      chunksAux sz fuel l = chunksAux sz fuel' l := by
  intro fuel
  induction fuel with
  | zero =>
    intro fuel' l h _
    have : l = [] := List.eq_nil_of_length_eq_zero (by omega)
    subst this
    rw [chunksAux_nil, chunksAux_nil]
  | succ f ih =>
    intro fuel' l h h'
    cases l with
    | nil => rw [chunksAux_nil, chunksAux_nil]
    | cons x xs =>
      cases fuel' with
      | zero => simp at h'
      | succ f' =>
        show (x :: xs).take sz :: chunksAux sz f ((x :: xs).drop sz)
          = (x :: xs).take sz :: chunksAux sz f' ((x :: xs).drop sz)
        congr 1
        apply ih
        · simp only [List.length_drop, List.length_cons] at h ⊢
          omega
        · simp only [List.length_drop, List.length_cons] at h' ⊢
          omega

theorem chunksOf_cons (sz : Nat) (hsz : 0 < sz) (l : List Nat) (hl : l ≠ []) :
    chunksOf sz l = l.take sz :: chunksOf sz (l.drop sz) := by
  cases l with
  | nil => cases hl rfl
  | cons x xs =>
    show (x :: xs).take sz :: chunksAux sz xs.length ((x :: xs).drop sz)
      = (x :: xs).take sz :: chunksOf sz ((x :: xs).drop sz)
    congr 1
    apply chunksAux_fuel sz hsz
    · simp only [List.length_drop]
      simp
      omega
    · exact le_rfl

theorem chunksOf_getD (sz : Nat) (hsz : 0 < sz) :
    ∀ (b : Nat) (l : List Nat), (chunksOf sz l).getD b [] = (l.drop (sz * b)).take sz := by
  intro b
  induction b with
  | zero =>
    intro l
    by_cases hl : l = []
    · subst hl; simp [chunksOf, chunksAux]
    · rw [chunksOf_cons sz hsz l hl]
      simp
  | succ b ih =>
    intro l
    by_cases hl : l = []
    · subst hl; simp [chunksOf, chunksAux]
    · rw [chunksOf_cons sz hsz l hl]
      show (chunksOf sz (l.drop sz)).getD b [] = _
      rw [ih (l.drop sz), List.drop_drop]
      have : sz + sz * b = sz * (b + 1) := by ring
      rw [this]

theorem chunksAux_length (sz : Nat) (hsz : 0 < sz) :
    ∀ fuel (l : List Nat), l.length ≤ fuel →
      (chunksAux sz fuel l).length = (l.length + sz - 1) / sz := by
  intro fuel
  induction fuel with
  | zero =>
    intro l h
    have : l = [] := List.eq_nil_of_length_eq_zero (by omega)
    subst this
    rw [chunksAux_nil]
    simp [Nat.div_eq_of_lt (show sz - 1 < sz by omega)]
  | succ f ih =>
    intro l h
    cases l with
    | nil =>
      rw [chunksAux_nil]
      simp [Nat.div_eq_of_lt (show sz - 1 < sz by omega)]
    | cons x xs =>
      show ((x :: xs).take sz :: chunksAux sz f ((x :: xs).drop sz)).length = _
      rw [List.length_cons, ih ((x :: xs).drop sz) (by simp at h ⊢; omega),
        List.length_drop]
      have hL : 1 ≤ (x :: xs).length := by simp
      have e : (x :: xs).length + sz - 1 = ((x :: xs).length - 1) + sz := by omega
      rw [e, Nat.add_div_right _ hsz]
      by_cases hc : (x :: xs).length ≤ sz
      · have e2 : (x :: xs).length - sz = 0 := by omega
        rw [e2]
        rw [Nat.div_eq_of_lt (show 0 + sz - 1 < sz by omega),
          Nat.div_eq_of_lt (show (x :: xs).length - 1 < sz by omega)]
      · have e3 : (x :: xs).length - sz + sz - 1 = (x :: xs).length - 1 := by omega
        rw [e3]

theorem chunksOf_length (sz : Nat) (hsz : 0 < sz) (l : List Nat) :
    (chunksOf sz l).length = (l.length + sz - 1) / sz :=
  chunksAux_length sz hsz l.length l le_rfl

theorem chunksOf_map_length (sz : Nat) (hsz : 0 < sz) (l : List Nat) :
    (chunksOf sz l).map List.length
      = (List.range ((l.length + sz - 1) / sz)).map (blockLen sz l.length) := by
  apply List.ext_getElem
  · simp [chunksOf_length sz hsz]
  · intro b h1 h2
    simp only [List.getElem_map, List.getElem_range]
    have hb : b < (chunksOf sz l).length := by simpa using h1
    rw [← List.getD_eq_getElem (chunksOf sz l) [] hb, chunksOf_getD sz hsz b l]
    simp [blockLen, List.length_take, List.length_drop]

theorem chunk_block_getD (sz : Nat) (hsz : 0 < sz) (l : List Nat) (idx : Nat)
    (hidx : idx < l.length) :
    ((l.drop (sz * (idx / sz))).take sz).getD (idx % sz) 0 = l.getD idx 0 := by
  have hmod : idx % sz < sz := Nat.mod_lt _ hsz
  have hdm : sz * (idx / sz) + idx % sz = idx := Nat.div_add_mod idx sz
  have hlen1 : idx % sz < (l.drop (sz * (idx / sz))).length := by
    rw [List.length_drop]
    omega
  have hlen2 : idx % sz < ((l.drop (sz * (idx / sz))).take sz).length := by
    rw [List.length_take]
    omega
  rw [List.getD_eq_getElem _ 0 hlen2, List.getD_eq_getElem l 0 hidx]
  rw [List.getElem_take, List.getElem_drop]
  simp only [hdm]

theorem readBlockHeader_append (blk : LinBlock) (rest : List Nat)
    (h1 : blk.first_value < 256 ^ 8) (h2 : blk.last_value < 256 ^ 8)
    (h3 : blk.shift_enc < 256 ^ 24) :
    readBlockHeader (blockHeaderBytes blk ++ rest) = .ok (blk, rest) := by
  unfold readBlockHeader blockHeaderBytes
  simp only [List.append_assoc, List.cons_append, List.nil_append]
  rw [readUIntLE_append _ h1]
  simp only [bindOk]
  rw [readUIntLE_append _ h2]
  simp only [bindOk]
  rw [readUIntLE_append _ h3]
  simp only [bindOk]
  rw [readUIntLE_one_cons]
  rfl

theorem readBlockHeaders_append (bls : List LinBlock) (rest : List Nat)
    (hb : ∀ blk ∈ bls, blk.first_value < 256 ^ 8 ∧ blk.last_value < 256 ^ 8
      ∧ blk.shift_enc < 256 ^ 24) :
    readBlockHeaders bls.length ((bls.map blockHeaderBytes).flatten ++ rest)
      = .ok (bls, rest) := by
  induction bls with
  | nil => simp [readBlockHeaders]
  | cons b bs ih =>
    obtain ⟨hb1, hb2, hb3⟩ := hb b (by simp)
    show readBlockHeaders (bs.length + 1)
      ((blockHeaderBytes b ++ (bs.map blockHeaderBytes).flatten) ++ rest) = _
    rw [List.append_assoc]
    show (do
      let (h, bs') ← readBlockHeader (blockHeaderBytes b ++ ((bs.map blockHeaderBytes).flatten ++ rest))
      let (hs, bs') ← readBlockHeaders bs.length bs'
      .ok (h :: hs, bs')) = _
    rw [readBlockHeader_append b _ hb1 hb2 hb3]
    simp only [bindOk]
    rw [ih (fun blk hblk => hb blk (List.mem_cons_of_mem b hblk))]
    simp only [bindOk]

theorem readBlockDatas_append (items : List (LinBlock × Nat × List Nat)) (rest : List Nat)
    (hlen : ∀ it ∈ items, it.2.2.length = (it.2.1 * it.1.bit_width + 7) / 8) :
    readBlockDatas (items.map (fun it => (it.1, it.2.1)))
        ((items.map (fun it => it.2.2)).flatten ++ rest)
      = .ok (items.map (fun it => (it.1, it.2.2)), rest) := by
  induction items with
  | nil => simp [readBlockDatas]
  | cons it its ih =>
    have h1 := hlen it (by simp)
    show readBlockDatas ((it.1, it.2.1)
        :: its.map (fun x : LinBlock × Nat × List Nat => (x.1, x.2.1)))
      ((it.2.2 ++ (its.map (fun x : LinBlock × Nat × List Nat => x.2.2)).flatten) ++ rest) = _
    rw [List.append_assoc]
    show (do
      let (d, bs') ← readN ((it.2.1 * it.1.bit_width + 7) / 8)
        (it.2.2 ++ ((its.map (fun x : LinBlock × Nat × List Nat => x.2.2)).flatten ++ rest))
      let (ds, bs') ← readBlockDatas
        (its.map (fun x : LinBlock × Nat × List Nat => (x.1, x.2.1))) bs'
      .ok ((it.1, d) :: ds, bs')) = _
    rw [readN_append _ h1]
    simp only [bindOk]
    rw [ih (fun x hx => hlen x (List.mem_cons_of_mem it hx))]
    simp only [bindOk]
    rfl

theorem readBlockHeaders_pairs (ps : List (LinBlock × List Nat)) (rest : List Nat)
    (hb : ∀ p ∈ ps, p.1.first_value < 256 ^ 8 ∧ p.1.last_value < 256 ^ 8
      ∧ p.1.shift_enc < 256 ^ 24) :
    readBlockHeaders ps.length ((ps.map (fun e => blockHeaderBytes e.1)).flatten ++ rest)
      = .ok (ps.map Prod.fst, rest) := by
  have h := readBlockHeaders_append (ps.map Prod.fst) rest ?_
  · rw [← List.length_map ps Prod.fst]
    simpa [List.map_map, Function.comp] using h
  · intro blk hblk
    rcases List.mem_map.1 hblk with ⟨p, hp, rfl⟩
    exact hb p hp

theorem readBlockDatas_pairs :
    ∀ (ps : List (LinBlock × List Nat)) (lens : List Nat) (rest : List Nat)
      (hpl : ps.length = lens.length),
      (∀ i (hi : i < ps.length),
        (ps[i].2.length = (lens.get ⟨i, by omega⟩ * ps[i].1.bit_width + 7) / 8)) →
      readBlockDatas ((ps.map Prod.fst).zip lens)
          ((ps.map (fun e : LinBlock × List Nat => e.2)).flatten ++ rest)
        = .ok (ps, rest) := by
  intro ps
  induction ps with
  | nil =>
    intro lens rest _ _
    simp [readBlockDatas]
  | cons p ps ih =>
    intro lens rest hlen hdat
    cases lens with
    | nil => simp at hlen
    | cons len lens' =>
      have h0 := hdat 0 (by simp)
      simp only [List.get_eq_getElem, List.getElem_cons_zero] at h0
      show readBlockDatas ((p.1, len) :: (ps.map Prod.fst).zip lens')
        ((p.2 ++ (ps.map (fun e : LinBlock × List Nat => e.2)).flatten) ++ rest) = _
      rw [List.append_assoc]
      show (do
        let (d, bs') ← readN ((len * p.1.bit_width + 7) / 8)
          (p.2 ++ ((ps.map (fun e : LinBlock × List Nat => e.2)).flatten ++ rest))
        let (ds, bs') ← readBlockDatas ((ps.map Prod.fst).zip lens') bs'
        .ok ((p.1, d) :: ds, bs')) = _
      rw [readN_append _ h0]
      simp only [bindOk]
      rw [ih lens' rest (by simpa using hlen)
        (fun i hi => by
          have := hdat (i + 1) (by simpa using Nat.succ_lt_succ hi)
          simpa [List.get_eq_getElem, List.getElem_cons_succ] using this)]
      simp only [bindOk]

theorem blockwise_roundtrip (vals : List Nat) (hv : ∀ v ∈ vals, v < 2 ^ 64)
    (hn : vals.length < 2 ^ 64) :
    ∃ r : BlockwiseLinearReader,
      BlockwiseLinearCodec.open_from_bytes (blockwiseEncode vals) = .ok r ∧
      num_vals r = vals.length ∧
      (∀ i, i < vals.length → get_val r i = vals.getD i 0) ∧
      (∀ i, i < vals.length → min_value r ≤ vals.getD i 0 ∧ vals.getD i 0 ≤ max_value r) := by
  have hB : 0 < BLOCK_SIZE := by norm_num [BLOCK_SIZE]
  have hBne : ¬(BLOCK_SIZE = 0) := by omega
  have h2564 : (256 : Nat) ^ 8 = 2 ^ 64 := by norm_num
  have hblock : ∀ b : Nat, (chunksOf BLOCK_SIZE vals).getD b []
      = (vals.drop (BLOCK_SIZE * b)).take BLOCK_SIZE :=
    fun b => chunksOf_getD BLOCK_SIZE hB b vals
  have hsub : ∀ vs ∈ chunksOf BLOCK_SIZE vals,
      (∀ v ∈ vs, v < 2 ^ 64) ∧ vs.length < 2 ^ 64 := by
    intro vs hvs
    rcases List.mem_iff_getElem.1 hvs with ⟨b, hb, hbe⟩
    have hvse : vs = (vals.drop (BLOCK_SIZE * b)).take BLOCK_SIZE := by
      rw [← hbe, ← List.getD_eq_getElem _ [] hb, hblock b]
    constructor
    · intro v hv'
      rw [hvse] at hv'
      exact hv v (List.drop_subset _ _ (List.take_subset _ _ hv'))
    · rw [hvse]
      have h1 : ((vals.drop (BLOCK_SIZE * b)).take BLOCK_SIZE).length ≤ BLOCK_SIZE := by
        simp [List.length_take]
      have h2 : BLOCK_SIZE < 2 ^ 64 := by norm_num [BLOCK_SIZE]
      omega
  refine ⟨⟨BLOCK_SIZE, vals.length, listMin vals, listMax vals,
    (chunksOf BLOCK_SIZE vals).map encodeBlock⟩, ?_, rfl, ?_, ?_⟩
  · have hsz4 : BLOCK_SIZE < 256 ^ 4 := by norm_num [BLOCK_SIZE]
    have hnn : vals.length < 256 ^ 8 := by omega
    have hmn : listMin vals < 256 ^ 8 := by
      rw [h2564]; exact listMin_lt_of_forall (by norm_num) hv
    have hmx : listMax vals < 256 ^ 8 := by
      rw [h2564]; exact listMax_lt_of_forall (by norm_num) hv
    have hHB : ∀ p ∈ (chunksOf BLOCK_SIZE vals).map encodeBlock,
        p.1.first_value < 256 ^ 8 ∧ p.1.last_value < 256 ^ 8 ∧ p.1.shift_enc < 256 ^ 24 := by
      intro p hp
      rcases List.mem_map.1 hp with ⟨vs, hvs, rfl⟩
      obtain ⟨hbv, hbn⟩ := hsub vs hvs
      rw [encodeBlock_fst]
      refine ⟨?_, ?_, ?_⟩
      · rw [h2564]; exact headD_lt (by norm_num) hbv
      · rw [h2564]; exact getLastD_lt vs 0 (by norm_num) hbv
      · show (blockMinR vs + SHIFT_OFFSET).toNat < 256 ^ 24
        have hlt := blockShiftEnc_lt hbv hbn
        have he : (256 : Nat) ^ 24 = 2 ^ 192 := by norm_num
        omega
    have hpl : ((chunksOf BLOCK_SIZE vals).map encodeBlock).length
        = ((List.range ((chunksOf BLOCK_SIZE vals).map encodeBlock).length).map
            (fun b => blockLen BLOCK_SIZE vals.length b)).length := by
      simp
    have hdat : ∀ i (hi : i < ((chunksOf BLOCK_SIZE vals).map encodeBlock).length),
        ((chunksOf BLOCK_SIZE vals).map encodeBlock)[i].2.length
          = (((List.range ((chunksOf BLOCK_SIZE vals).map encodeBlock).length).map
              (fun b => blockLen BLOCK_SIZE vals.length b)).get ⟨i, by omega⟩
            * ((chunksOf BLOCK_SIZE vals).map encodeBlock)[i].1.bit_width + 7) / 8 := by
      intro i hi
      have hic : i < (chunksOf BLOCK_SIZE vals).length := by simpa using hi
      simp only [List.get_eq_getElem]
      rw [List.getElem_map, List.getElem_map, List.getElem_range, encodeBlock_snd,
        encodeBlock_fst, natToBytesLE_length]
      have hlen : blockLen BLOCK_SIZE vals.length i = (chunksOf BLOCK_SIZE vals)[i].length := by
        rw [← List.getD_eq_getElem _ [] hic, hblock i]
        simp [blockLen, List.length_take, List.length_drop]
      rw [hlen]
    unfold BlockwiseLinearCodec.open_from_bytes blockwiseEncode
    simp only [List.append_assoc]
    rw [readUIntLE_append _ hsz4]
    simp only [bindOk]
    rw [readUIntLE_append _ hnn]
    simp only [bindOk]
    rw [readUIntLE_append _ hmn]
    simp only [bindOk]
    rw [readUIntLE_append _ hmx]
    simp only [bindOk]
    rw [if_neg hBne, ← chunksOf_length BLOCK_SIZE hB vals,
      ← List.length_map (chunksOf BLOCK_SIZE vals) encodeBlock]
    rw [readBlockHeaders_pairs ((chunksOf BLOCK_SIZE vals).map encodeBlock) _ hHB]
    simp only [bindOk]
    rw [show ((((chunksOf BLOCK_SIZE vals).map encodeBlock).map
          (fun e : LinBlock × List Nat => e.2)).flatten)
        = (((chunksOf BLOCK_SIZE vals).map encodeBlock).map
          (fun e : LinBlock × List Nat => e.2)).flatten ++ [] from (List.append_nil _).symm]
    rw [readBlockDatas_pairs ((chunksOf BLOCK_SIZE vals).map encodeBlock)
      ((List.range ((chunksOf BLOCK_SIZE vals).map encodeBlock).length).map
        (fun b => blockLen BLOCK_SIZE vals.length b)) [] hpl hdat]
    simp only [bindOk]
  · intro idx hidx
    have hdm := Nat.div_add_mod idx BLOCK_SIZE
    have hb : idx / BLOCK_SIZE < (chunksOf BLOCK_SIZE vals).length := by
      rw [chunksOf_length BLOCK_SIZE hB]
      have h1 : idx / BLOCK_SIZE ≤ (vals.length - 1) / BLOCK_SIZE :=
        Nat.div_le_div_right (by omega)
      have h2 : vals.length + BLOCK_SIZE - 1 = (vals.length - 1) + BLOCK_SIZE := by omega
      rw [h2, Nat.add_div_right _ hB]
      omega
    rw [Blockwiselin_get_val_def]
    simp only
    have hmaplen : idx / BLOCK_SIZE < ((chunksOf BLOCK_SIZE vals).map encodeBlock).length := by
      simpa using hb
    rw [List.getD_eq_getElem _ _ hmaplen, List.getElem_map,
      ← List.getD_eq_getElem _ [] hb, hblock (idx / BLOCK_SIZE)]
    have hlenblk : blockLen BLOCK_SIZE vals.length (idx / BLOCK_SIZE)
        = ((vals.drop (BLOCK_SIZE * (idx / BLOCK_SIZE))).take BLOCK_SIZE).length := by
      simp [blockLen, List.length_take, List.length_drop]
    rw [hlenblk]
    have hoff : idx % BLOCK_SIZE
        < ((vals.drop (BLOCK_SIZE * (idx / BLOCK_SIZE))).take BLOCK_SIZE).length := by
      simp only [List.length_take, List.length_drop]
      have := Nat.mod_lt idx hB
      omega
    have hmem : (vals.drop (BLOCK_SIZE * (idx / BLOCK_SIZE))).take BLOCK_SIZE
        ∈ chunksOf BLOCK_SIZE vals := by
      rw [← hblock (idx / BLOCK_SIZE), List.getD_eq_getElem _ [] hb]
      exact List.getElem_mem hb
    obtain ⟨hbv, hbn⟩ := hsub _ hmem
    rw [encodeBlock_roundtrip _ hbv hbn _ hoff,
      chunk_block_getD BLOCK_SIZE hB vals idx hidx]
  · intro i hi
    rw [Blockwiselin_min_value_def, Blockwiselin_max_value_def]
    simp only
    have hmem : vals.getD i 0 ∈ vals := by
      rw [List.getD_eq_getElem vals 0 hi]
      exact List.getElem_mem hi
    exact ⟨listMin_le hmem, le_listMax hmem⟩

/-! ## Dispatch-layer reductions -/

theorem bindErr {e a b : Type} (err : e) (f : a -> Except e b) :
    (Except.error err : Except e a) >>= f = .error err := rfl

theorem open_eq {Item : Type} (file : List Nat) :
    @DynamicFastFieldReader.«open» Item file
      = match FastFieldCodecType.deserialize file with
        | .ok (t, bytes) => DynamicFastFieldReader.open_from_id bytes t
        | .error e => .error e := by
  cases h : FastFieldCodecType.deserialize file with
  | ok p =>
    obtain ⟨t, bytes⟩ := p
    unfold DynamicFastFieldReader.«open»
    rw [h]
    rfl
  | error e =>
    unfold DynamicFastFieldReader.«open»
    rw [h]
    rfl

theorem open_from_id_bitpacked {Item : Type} (bytes : List Nat) :
    @DynamicFastFieldReader.open_from_id Item bytes FastFieldCodecType.Bitpacked
      = (BitpackedCodec.open_from_bytes bytes).map
          (fun r => DynamicFastFieldReader.Bitpacked (FastFieldReaderCodecWrapper.ofReader r)) := by
  cases h : BitpackedCodec.open_from_bytes bytes with
  | ok r =>
    unfold DynamicFastFieldReader.open_from_id
    rw [h]
    rfl
  | error e =>
    unfold DynamicFastFieldReader.open_from_id
    rw [h]
    rfl

theorem open_from_id_linear {Item : Type} (bytes : List Nat) :
    @DynamicFastFieldReader.open_from_id Item bytes FastFieldCodecType.Linear
      = (LinearCodec.open_from_bytes bytes).map
          (fun r => DynamicFastFieldReader.Linear (FastFieldReaderCodecWrapper.ofReader r)) := by
  cases h : LinearCodec.open_from_bytes bytes with
  | ok r =>
    unfold DynamicFastFieldReader.open_from_id
    rw [h]
    rfl
  | error e =>
    unfold DynamicFastFieldReader.open_from_id
    rw [h]
    rfl

theorem open_from_id_blockwise {Item : Type} (bytes : List Nat) :
    @DynamicFastFieldReader.open_from_id Item bytes FastFieldCodecType.BlockwiseLinear
      = (BlockwiseLinearCodec.open_from_bytes bytes).map
          (fun r => DynamicFastFieldReader.BlockwiseLinear (FastFieldReaderCodecWrapper.ofReader r)) := by
  cases h : BlockwiseLinearCodec.open_from_bytes bytes with
  | ok r =>
    unfold DynamicFastFieldReader.open_from_id
    rw [h]
    rfl
  | error e =>
    unfold DynamicFastFieldReader.open_from_id
    rw [h]
    rfl

theorem open_from_id_gcd {Item : Type} (bytes : List Nat) :
    @DynamicFastFieldReader.open_from_id Item bytes FastFieldCodecType.Gcd
      = match FastFieldCodecType.deserialize bytes with
        | .error e => .error e
        | .ok (.Bitpacked, rest) =>
          (open_gcd_from_bytes BitpackedCodec.open_from_bytes rest).map
            (fun r => DynamicFastFieldReader.BitpackedGCD (FastFieldReaderCodecWrapper.ofReader r))
        | .ok (.Linear, rest) =>
          (open_gcd_from_bytes LinearCodec.open_from_bytes rest).map
            (fun r => DynamicFastFieldReader.LinearGCD (FastFieldReaderCodecWrapper.ofReader r))
        | .ok (.BlockwiseLinear, rest) =>
          (open_gcd_from_bytes BlockwiseLinearCodec.open_from_bytes rest).map
            (fun r => DynamicFastFieldReader.BlockwiseLinearGCD (FastFieldReaderCodecWrapper.ofReader r))
        | .ok (.Gcd, _) =>
          .error (.dataCorruption
            "Gcd codec wrapped into another gcd codec. This combination is not allowed.") := by
  cases h : FastFieldCodecType.deserialize bytes with
  | error e =>
    unfold DynamicFastFieldReader.open_from_id
    rw [h]
    rfl
  | ok p =>
    obtain ⟨t, rest⟩ := p
    cases t with
    | Bitpacked =>
      cases h2 : open_gcd_from_bytes BitpackedCodec.open_from_bytes rest with
      | ok r =>
        unfold DynamicFastFieldReader.open_from_id
        rw [h]
        simp only [bindOk]
        rw [h2]
        rfl
      | error e =>
        unfold DynamicFastFieldReader.open_from_id
        rw [h]
        simp only [bindOk]
        rw [h2]
        rfl
    | Linear =>
      cases h2 : open_gcd_from_bytes LinearCodec.open_from_bytes rest with
      | ok r =>
        unfold DynamicFastFieldReader.open_from_id
        rw [h]
        simp only [bindOk]
        rw [h2]
        rfl
      | error e =>
        unfold DynamicFastFieldReader.open_from_id
        rw [h]
        simp only [bindOk]
        rw [h2]
        rfl
    | BlockwiseLinear =>
      cases h2 : open_gcd_from_bytes BlockwiseLinearCodec.open_from_bytes rest with
      | ok r =>
        unfold DynamicFastFieldReader.open_from_id
        rw [h]
        simp only [bindOk]
        rw [h2]
        rfl
      | error e =>
        unfold DynamicFastFieldReader.open_from_id
        rw [h]
        simp only [bindOk]
        rw [h2]
        rfl
    | Gcd =>
      unfold DynamicFastFieldReader.open_from_id
      rw [h]
      rfl

theorem getD_map_lt (f : Nat → Nat) (l : List Nat) (i : Nat) (hi : i < l.length) :
    (l.map f).getD i 0 = f (l.getD i 0) := by
  rw [List.getD_eq_getElem _ 0 (by simpa using hi), List.getElem_map,
    List.getD_eq_getElem l 0 hi]

theorem gcd_wrap_props {R : Type} [Column R Nat] (g : Nat) (inner : R) (vals : List Nat)
    (hdvd : ∀ v ∈ vals, g ∣ v)
    (hnum : num_vals inner = (vals.map (fun v => v / g)).length)
    (hget : ∀ i, i < (vals.map (fun v => v / g)).length →
      get_val inner i = (vals.map (fun v => v / g)).getD i 0)
    (hbnd : ∀ i, i < (vals.map (fun v => v / g)).length →
      min_value inner ≤ (vals.map (fun v => v / g)).getD i 0
        ∧ (vals.map (fun v => v / g)).getD i 0 ≤ max_value inner) :
    num_vals (GCDReader.mk g inner) = vals.length ∧
    (∀ i, i < vals.length → get_val (GCDReader.mk g inner) i = vals.getD i 0) ∧
    (∀ i, i < vals.length → min_value (GCDReader.mk g inner) ≤ vals.getD i 0
      ∧ vals.getD i 0 ≤ max_value (GCDReader.mk g inner)) := by
  have hmlen : (vals.map (fun v => v / g)).length = vals.length := by simp
  have hmemD : ∀ i, i < vals.length → vals.getD i 0 ∈ vals := by
    intro i hi
    rw [List.getD_eq_getElem vals 0 hi]
    exact List.getElem_mem hi
  refine ⟨?_, ?_, ?_⟩
  · rw [gcdr_num_vals_def]
    simp only
    rw [hnum, hmlen]
  · intro i hi
    rw [gcdr_get_val_def]
    simp only
    rw [hget i (by omega), getD_map_lt _ _ _ hi]
    exact Nat.mul_div_cancel' (hdvd _ (hmemD i hi))
  · intro i hi
    rw [gcdr_min_value_def, gcdr_max_value_def]
    simp only
    obtain ⟨hb1, hb2⟩ := hbnd i (by omega)
    rw [getD_map_lt _ _ _ hi] at hb1 hb2
    have e : g * (vals.getD i 0 / g) = vals.getD i 0 :=
      Nat.mul_div_cancel' (hdvd _ (hmemD i hi))
    constructor
    · calc g * min_value inner ≤ g * (vals.getD i 0 / g) := Nat.mul_le_mul_left g hb1
        _ = vals.getD i 0 := e
    · calc vals.getD i 0 = g * (vals.getD i 0 / g) := e.symm
        _ ≤ g * max_value inner := Nat.mul_le_mul_left g hb2

theorem deserialize_cons_code (t : FastFieldCodecType) (rest : List Nat) :
    FastFieldCodecType.deserialize (t.toCode :: rest) = .ok (t, rest) := by
  cases t <;> rfl

theorem open_cons_ok {Item : Type} (t : FastFieldCodecType) (rest : List Nat) :
    @DynamicFastFieldReader.«open» Item (t.toCode :: rest)
      = DynamicFastFieldReader.open_from_id rest t := by
  cases t <;> rfl

theorem serializeWith_false (ic : InnerCodecChoice) (vals : List Nat) :
    serializeWith ⟨ic, false⟩ vals = ic.tag.toCode :: innerEncode ic vals := by
  cases ic <;> rfl

theorem serializeWith_true (ic : InnerCodecChoice) (vals : List Nat) :
    serializeWith ⟨ic, true⟩ vals
      = FastFieldCodecType.Gcd.toCode
        :: (ic.tag.toCode
          :: (natToBytesLE 8 (gcdDivisor vals)
            ++ innerEncode ic (vals.map (fun v => v / gcdDivisor vals)))) := by
  cases ic <;> rfl

set_option maxHeartbeats 1000000 in
theorem serialize_open_roundtrip {Item : Type} [LinearOrder Item] [FastValue Item]
    (c : CodecChoice) (vals : List Nat) (hv : ∀ v ∈ vals, v < 2 ^ 64)
    (hn : vals.length < 2 ^ 64) :
    ∃ r : DynamicFastFieldReader Item,
      DynamicFastFieldReader.«open» (serializeWith c vals) = .ok r ∧
      num_vals r = vals.length ∧
      (∀ i, i < vals.length → get_val r i = FastValue.from_u64 (vals.getD i 0)) ∧
      (∀ i, i < vals.length → min_value r ≤ get_val r i ∧ get_val r i ≤ max_value r) := by
  obtain ⟨ic, ug⟩ := c
  have h2564 : (256 : Nat) ^ 8 = 2 ^ 64 := by norm_num
  have hqv : ∀ q ∈ vals.map (fun v => v / gcdDivisor vals), q < 2 ^ 64 := by
    intro q hq
    rcases List.mem_map.1 hq with ⟨v, hvm, rfl⟩
    exact lt_of_le_of_lt (Nat.div_le_self v _) (hv v hvm)
  have hqn : (vals.map (fun v => v / gcdDivisor vals)).length < 2 ^ 64 := by simpa using hn
  have hglt : gcdDivisor vals < 256 ^ 8 := by
    rw [h2564]
    exact gcdDivisor_lt (by norm_num) hv
  have hdvd : ∀ v ∈ vals, gcdDivisor vals ∣ v := fun v hvm => gcdDivisor_dvd hvm
  cases ug with
  | false =>
    cases ic with
    | bitpacked =>
      obtain ⟨r, hopen, hnum, hget, hbnd⟩ := bitpacked_roundtrip vals hv hn
      refine ⟨.Bitpacked (.ofReader r), ?_, ?_, ?_, ?_⟩
      · rw [serializeWith_false, open_cons_ok]
        show @DynamicFastFieldReader.open_from_id Item
          (bitpackedEncode vals) FastFieldCodecType.Bitpacked = _
        rw [open_from_id_bitpacked, hopen]
        rfl
      · exact hnum
      · intro i hi
        show FastValue.from_u64 (get_val r i) = _
        rw [hget i hi]
      · intro i hi
        show FastValue.from_u64 (min_value r) ≤ FastValue.from_u64 (get_val r i)
          ∧ FastValue.from_u64 (get_val r i) ≤ FastValue.from_u64 (max_value r)
        constructor
        · apply FastValue.from_u64_mono
          rw [hget i hi]
          exact (hbnd i hi).1
        · apply FastValue.from_u64_mono
          rw [hget i hi]
          exact (hbnd i hi).2
    | linear =>
      obtain ⟨r, hopen, hnum, hget, hbnd⟩ := linear_roundtrip vals hv hn
      refine ⟨.Linear (.ofReader r), ?_, ?_, ?_, ?_⟩
      · rw [serializeWith_false, open_cons_ok]
        show @DynamicFastFieldReader.open_from_id Item
          (linearEncode vals) FastFieldCodecType.Linear = _
        rw [open_from_id_linear, hopen]
        rfl
      · exact hnum
      · intro i hi
        show FastValue.from_u64 (get_val r i) = _
        rw [hget i hi]
      · intro i hi
        show FastValue.from_u64 (min_value r) ≤ FastValue.from_u64 (get_val r i)
          ∧ FastValue.from_u64 (get_val r i) ≤ FastValue.from_u64 (max_value r)
        constructor
        · apply FastValue.from_u64_mono
          rw [hget i hi]
          exact (hbnd i hi).1
        · apply FastValue.from_u64_mono
          rw [hget i hi]
          exact (hbnd i hi).2
    | blockwiseLinear =>
      obtain ⟨r, hopen, hnum, hget, hbnd⟩ := blockwise_roundtrip vals hv hn
      refine ⟨.BlockwiseLinear (.ofReader r), ?_, ?_, ?_, ?_⟩
      · rw [serializeWith_false, open_cons_ok]
        show @DynamicFastFieldReader.open_from_id Item
          (blockwiseEncode vals) FastFieldCodecType.BlockwiseLinear = _
        rw [open_from_id_blockwise, hopen]
        rfl
      · exact hnum
      · intro i hi
        show FastValue.from_u64 (get_val r i) = _
        rw [hget i hi]
      · intro i hi
        show FastValue.from_u64 (min_value r) ≤ FastValue.from_u64 (get_val r i)
          ∧ FastValue.from_u64 (get_val r i) ≤ FastValue.from_u64 (max_value r)
        constructor
        · apply FastValue.from_u64_mono
          rw [hget i hi]
          exact (hbnd i hi).1
        · apply FastValue.from_u64_mono
          rw [hget i hi]
          exact (hbnd i hi).2
  | true =>
    cases ic with
    | bitpacked =>
      obtain ⟨r, hopen, hnum, hget, hbnd⟩ := bitpacked_roundtrip _ hqv hqn
      obtain ⟨gnum, gget, gbnd⟩ := gcd_wrap_props (gcdDivisor vals) r vals hdvd hnum hget hbnd
      have hgopen : open_gcd_from_bytes BitpackedCodec.open_from_bytes
          (natToBytesLE 8 (gcdDivisor vals)
            ++ bitpackedEncode (vals.map (fun v => v / gcdDivisor vals)))
          = .ok ⟨gcdDivisor vals, r⟩ := by
        unfold open_gcd_from_bytes
        rw [readUIntLE_append _ hglt]
        simp only [bindOk]
        rw [hopen]
        simp only [bindOk]
      refine ⟨.BitpackedGCD (.ofReader ⟨gcdDivisor vals, r⟩), ?_, ?_, ?_, ?_⟩
      · rw [serializeWith_true, open_cons_ok, open_from_id_gcd, deserialize_cons_code]
        show (open_gcd_from_bytes BitpackedCodec.open_from_bytes
          (natToBytesLE 8 (gcdDivisor vals)
            ++ bitpackedEncode (vals.map (fun v => v / gcdDivisor vals)))).map
          (fun r => DynamicFastFieldReader.BitpackedGCD (FastFieldReaderCodecWrapper.ofReader r))
          = _
        rw [hgopen]
        rfl
      · exact gnum
      · intro i hi
        show FastValue.from_u64 (get_val (GCDReader.mk (gcdDivisor vals) r) i) = _
        rw [gget i hi]
      · intro i hi
        show FastValue.from_u64 (min_value (GCDReader.mk (gcdDivisor vals) r))
            ≤ FastValue.from_u64 (get_val (GCDReader.mk (gcdDivisor vals) r) i)
          ∧ FastValue.from_u64 (get_val (GCDReader.mk (gcdDivisor vals) r) i)
            ≤ FastValue.from_u64 (max_value (GCDReader.mk (gcdDivisor vals) r))
        constructor
        · apply FastValue.from_u64_mono
          rw [gget i hi]
          exact (gbnd i hi).1
        · apply FastValue.from_u64_mono
          rw [gget i hi]
          exact (gbnd i hi).2
    | linear =>
      obtain ⟨r, hopen, hnum, hget, hbnd⟩ := linear_roundtrip _ hqv hqn
      obtain ⟨gnum, gget, gbnd⟩ := gcd_wrap_props (gcdDivisor vals) r vals hdvd hnum hget hbnd
      have hgopen : open_gcd_from_bytes LinearCodec.open_from_bytes
          (natToBytesLE 8 (gcdDivisor vals)
            ++ linearEncode (vals.map (fun v => v / gcdDivisor vals)))
          = .ok ⟨gcdDivisor vals, r⟩ := by
        unfold open_gcd_from_bytes
        rw [readUIntLE_append _ hglt]
        simp only [bindOk]
        rw [hopen]
        simp only [bindOk]
      refine ⟨.LinearGCD (.ofReader ⟨gcdDivisor vals, r⟩), ?_, ?_, ?_, ?_⟩
      · rw [serializeWith_true, open_cons_ok, open_from_id_gcd, deserialize_cons_code]
        show (open_gcd_from_bytes LinearCodec.open_from_bytes
          (natToBytesLE 8 (gcdDivisor vals)
            ++ linearEncode (vals.map (fun v => v / gcdDivisor vals)))).map
          (fun r => DynamicFastFieldReader.LinearGCD (FastFieldReaderCodecWrapper.ofReader r))
          = _
        rw [hgopen]
        rfl
      · exact gnum
      · intro i hi
        show FastValue.from_u64 (get_val (GCDReader.mk (gcdDivisor vals) r) i) = _
        rw [gget i hi]
      · intro i hi
        show FastValue.from_u64 (min_value (GCDReader.mk (gcdDivisor vals) r))
            ≤ FastValue.from_u64 (get_val (GCDReader.mk (gcdDivisor vals) r) i)
          ∧ FastValue.from_u64 (get_val (GCDReader.mk (gcdDivisor vals) r) i)
            ≤ FastValue.from_u64 (max_value (GCDReader.mk (gcdDivisor vals) r))
        constructor
        · apply FastValue.from_u64_mono
          rw [gget i hi]
          exact (gbnd i hi).1
        · apply FastValue.from_u64_mono
          rw [gget i hi]
          exact (gbnd i hi).2
    | blockwiseLinear =>
      obtain ⟨r, hopen, hnum, hget, hbnd⟩ := blockwise_roundtrip _ hqv hqn
      obtain ⟨gnum, gget, gbnd⟩ := gcd_wrap_props (gcdDivisor vals) r vals hdvd hnum hget hbnd
      have hgopen : open_gcd_from_bytes BlockwiseLinearCodec.open_from_bytes
          (natToBytesLE 8 (gcdDivisor vals)
            ++ blockwiseEncode (vals.map (fun v => v / gcdDivisor vals)))
          = .ok ⟨gcdDivisor vals, r⟩ := by
        unfold open_gcd_from_bytes
        rw [readUIntLE_append _ hglt]
        simp only [bindOk]
        rw [hopen]
        simp only [bindOk]
      refine ⟨.BlockwiseLinearGCD (.ofReader ⟨gcdDivisor vals, r⟩), ?_, ?_, ?_, ?_⟩
      · rw [serializeWith_true, open_cons_ok, open_from_id_gcd, deserialize_cons_code]
        show (open_gcd_from_bytes BlockwiseLinearCodec.open_from_bytes
          (natToBytesLE 8 (gcdDivisor vals)
            ++ blockwiseEncode (vals.map (fun v => v / gcdDivisor vals)))).map
          (fun r => DynamicFastFieldReader.BlockwiseLinearGCD (FastFieldReaderCodecWrapper.ofReader r))
          = _
        rw [hgopen]
        rfl
      · exact gnum
      · intro i hi
        show FastValue.from_u64 (get_val (GCDReader.mk (gcdDivisor vals) r) i) = _
        rw [gget i hi]
      · intro i hi
        show FastValue.from_u64 (min_value (GCDReader.mk (gcdDivisor vals) r))
            ≤ FastValue.from_u64 (get_val (GCDReader.mk (gcdDivisor vals) r) i)
          ∧ FastValue.from_u64 (get_val (GCDReader.mk (gcdDivisor vals) r) i)
            ≤ FastValue.from_u64 (max_value (GCDReader.mk (gcdDivisor vals) r))
        constructor
        · apply FastValue.from_u64_mono
          rw [gget i hi]
          exact (gbnd i hi).1
        · apply FastValue.from_u64_mono
          rw [gget i hi]
          exact (gbnd i hi).2

/-! ## Segment metadata lemmas -/

theorem opstampTrace_eq (m : SegmentMeta) (ops : List (Nat × Nat)) :
    opstampTrace m ops = ops.map Prod.snd := by
  induction ops generalizing m with
  | nil => rfl
  | cons p ops ih =>
    rw [opstampTrace, ih]
    rfl

/-! ## Claim theorems -/

/-- Claim C1: for every byte region whose outer codec tag is `Gcd` and whose
nested inner tag deserializes to `Gcd`, `open_from_id` (and hence `open`)
returns a data-corruption error carrying a diagnostic message and produces no
reader. -/
theorem gcd_nested_rejected {Item : Type} (bytes rest rest2 : List Nat)
    (houter : FastFieldCodecType.deserialize bytes = .ok (FastFieldCodecType.Gcd, rest))
    (hinner : FastFieldCodecType.deserialize rest = .ok (FastFieldCodecType.Gcd, rest2)) :
    @DynamicFastFieldReader.open_from_id Item rest FastFieldCodecType.Gcd
      = .error (TvError.dataCorruption
        "Gcd codec wrapped into another gcd codec. This combination is not allowed.")
    ∧ @DynamicFastFieldReader.«open» Item bytes
      = .error (TvError.dataCorruption
        "Gcd codec wrapped into another gcd codec. This combination is not allowed.")
    ∧ ∀ r : DynamicFastFieldReader Item, DynamicFastFieldReader.«open» bytes ≠ .ok r := by
  have h1 : @DynamicFastFieldReader.open_from_id Item rest FastFieldCodecType.Gcd
      = .error (TvError.dataCorruption
        "Gcd codec wrapped into another gcd codec. This combination is not allowed.") := by
    rw [open_from_id_gcd, hinner]
  have h2 : @DynamicFastFieldReader.«open» Item bytes
      = .error (TvError.dataCorruption
        "Gcd codec wrapped into another gcd codec. This combination is not allowed.") := by
    rw [open_eq, houter]
    exact h1
  refine ⟨h1, h2, ?_⟩
  intro r hr
  rw [h2] at hr
  cases hr

theorem gcd_nested_rejected_witness :
    FastFieldCodecType.deserialize [4, 4] = .ok (FastFieldCodecType.Gcd, [4])
    ∧ FastFieldCodecType.deserialize [4] = .ok (FastFieldCodecType.Gcd, [])
    ∧ (@DynamicFastFieldReader.open_from_id Nat [4] FastFieldCodecType.Gcd
        = .error (TvError.dataCorruption
          "Gcd codec wrapped into another gcd codec. This combination is not allowed.")
      ∧ @DynamicFastFieldReader.«open» Nat [4, 4]
        = .error (TvError.dataCorruption
          "Gcd codec wrapped into another gcd codec. This combination is not allowed.")
      ∧ ∀ r : DynamicFastFieldReader Nat, DynamicFastFieldReader.«open» [4, 4] ≠ .ok r) :=
  ⟨rfl, rfl, gcd_nested_rejected [4, 4] [4] [] rfl rfl⟩

/-- Claim C2: for every finite sequence of domain values, the reader built via
the in-memory construction path `From<Vec<Item>>` (modelled by `fromVec`,
which routes the values through the write pipeline into a memory-backed sink
and reopens) satisfies `num_vals() = length` and `get_val(i)` equal to the
i-th original value for every `i` below that length. -/
theorem fromVec_roundtrip {Item : Type} [LinearOrder Item] [FastValue Item]
    (vals : List Item) (hv : ∀ v ∈ vals, FastValue.to_u64 v < 2 ^ 64)
    (hn : vals.length < 2 ^ 64) :
    num_vals (DynamicFastFieldReader.fromVec vals) = vals.length ∧
    ∀ i (hi : i < vals.length),
      get_val (DynamicFastFieldReader.fromVec vals) i = vals.get ⟨i, hi⟩ := by
  have hv' : ∀ u ∈ vals.map FastValue.to_u64, u < 2 ^ 64 := by
    intro u hu
    rcases List.mem_map.1 hu with ⟨v, hvm, rfl⟩
    exact hv v hvm
  have hn' : (vals.map FastValue.to_u64).length < 2 ^ 64 := by simpa using hn
  obtain ⟨r, hopen, hnum, hget, _⟩ := @serialize_open_roundtrip Item _ _
    ⟨.bitpacked, decide (1 < gcdDivisor (vals.map FastValue.to_u64))⟩
    (vals.map FastValue.to_u64) hv' hn'
  have he : DynamicFastFieldReader.fromVec vals = r := by
    unfold DynamicFastFieldReader.fromVec
    rw [show serializeColumn (vals.map FastValue.to_u64)
        = serializeWith ⟨.bitpacked, decide (1 < gcdDivisor (vals.map FastValue.to_u64))⟩
          (vals.map FastValue.to_u64) from rfl]
    rw [hopen]
  constructor
  · rw [he, hnum]
    simp
  · intro i hi
    rw [he, hget i (by simpa using hi)]
    rw [List.getD_eq_getElem _ 0 (by simpa using hi), List.getElem_map]
    rw [FastValue.from_to]
    rfl

theorem fromVec_roundtrip_witness :
    (∀ v ∈ ([10, 20, 30, 40] : List Nat), FastValue.to_u64 v < 2 ^ 64)
    ∧ ([10, 20, 30, 40] : List Nat).length < 2 ^ 64
    ∧ (num_vals (DynamicFastFieldReader.fromVec ([10, 20, 30, 40] : List Nat))
        = ([10, 20, 30, 40] : List Nat).length
      ∧ ∀ i (hi : i < ([10, 20, 30, 40] : List Nat).length),
          get_val (DynamicFastFieldReader.fromVec ([10, 20, 30, 40] : List Nat)) i
            = ([10, 20, 30, 40] : List Nat).get ⟨i, hi⟩) :=
  ⟨by decide, by decide, fromVec_roundtrip [10, 20, 30, 40] (by decide) (by decide)⟩

/-- Claim C3: every reader is exactly one of the six fixed variants of the
closed tagged union, and each of the four column operations on the dispatch
reader returns exactly what the same operation returns on the active
variant's inner reader. -/
theorem dynamic_reader_dispatch {Item : Type} [LinearOrder Item] [FastValue Item]
    (r : DynamicFastFieldReader Item) (i : Nat) :
    ((∃ w, r = .Bitpacked w) ∨ (∃ w, r = .Linear w) ∨ (∃ w, r = .BlockwiseLinear w)
      ∨ (∃ w, r = .BitpackedGCD w) ∨ (∃ w, r = .LinearGCD w)
      ∨ (∃ w, r = .BlockwiseLinearGCD w))
    ∧ get_val r i =
        (match r with
        | .Bitpacked w => get_val w i
        | .Linear w => get_val w i
        | .BlockwiseLinear w => get_val w i
        | .BitpackedGCD w => get_val w i
        | .LinearGCD w => get_val w i
        | .BlockwiseLinearGCD w => get_val w i)
    ∧ min_value r =
        (match r with
        | .Bitpacked w => min_value w
        | .Linear w => min_value w
        | .BlockwiseLinear w => min_value w
        | .BitpackedGCD w => min_value w
        | .LinearGCD w => min_value w
        | .BlockwiseLinearGCD w => min_value w)
    ∧ max_value r =
        (match r with
        | .Bitpacked w => max_value w
        | .Linear w => max_value w
        | .BlockwiseLinear w => max_value w
        | .BitpackedGCD w => max_value w
        | .LinearGCD w => max_value w
        | .BlockwiseLinearGCD w => max_value w)
    ∧ num_vals r =
        (match r with
        | .Bitpacked w => num_vals w
        | .Linear w => num_vals w
        | .BlockwiseLinear w => num_vals w
        | .BitpackedGCD w => num_vals w
        | .LinearGCD w => num_vals w
        | .BlockwiseLinearGCD w => num_vals w) := by
  cases r with
  | Bitpacked w => exact ⟨Or.inl ⟨w, rfl⟩, rfl, rfl, rfl, rfl⟩
  | Linear w => exact ⟨Or.inr (Or.inl ⟨w, rfl⟩), rfl, rfl, rfl, rfl⟩
  | BlockwiseLinear w => exact ⟨Or.inr (Or.inr (Or.inl ⟨w, rfl⟩)), rfl, rfl, rfl, rfl⟩
  | BitpackedGCD w => exact ⟨Or.inr (Or.inr (Or.inr (Or.inl ⟨w, rfl⟩))), rfl, rfl, rfl, rfl⟩
  | LinearGCD w => exact ⟨Or.inr (Or.inr (Or.inr (Or.inr (Or.inl ⟨w, rfl⟩)))), rfl, rfl, rfl, rfl⟩
  | BlockwiseLinearGCD w =>
    exact ⟨Or.inr (Or.inr (Or.inr (Or.inr (Or.inr ⟨w, rfl⟩)))), rfl, rfl, rfl, rfl⟩

/-- Claim C4: `open` reads exactly one codec tag from the front of the region
and returns the result of `open_from_id` applied to the remaining bytes and
that tag; `open` fails whenever tag deserialization or `open_from_id`
fails. -/
theorem open_reads_tag_then_delegates {Item : Type} (bs : List Nat) :
    (@DynamicFastFieldReader.«open» Item bs
      = match FastFieldCodecType.deserialize bs with
        | .ok (t, rest) => DynamicFastFieldReader.open_from_id rest t
        | .error e => .error e)
    ∧ (∀ e, FastFieldCodecType.deserialize bs = .error e
        → @DynamicFastFieldReader.«open» Item bs = .error e)
    ∧ (∀ t rest e, FastFieldCodecType.deserialize bs = .ok (t, rest)
        → @DynamicFastFieldReader.open_from_id Item rest t = .error e
        → @DynamicFastFieldReader.«open» Item bs = .error e) := by
  refine ⟨open_eq bs, ?_, ?_⟩
  · intro e he
    rw [open_eq, he]
  · intro t rest e ht hof
    rw [open_eq, ht]
    exact hof

theorem open_reads_tag_then_delegates_witness :
    (@DynamicFastFieldReader.«open» Nat [0]
      = match FastFieldCodecType.deserialize [0] with
        | .ok (t, rest) => DynamicFastFieldReader.open_from_id rest t
        | .error e => .error e)
    ∧ (∀ e, FastFieldCodecType.deserialize [0] = .error e
        → @DynamicFastFieldReader.«open» Nat [0] = .error e)
    ∧ (∀ t rest e, FastFieldCodecType.deserialize [0] = .ok (t, rest)
        → @DynamicFastFieldReader.open_from_id Nat rest t = .error e
        → @DynamicFastFieldReader.«open» Nat [0] = .error e) :=
  open_reads_tag_then_delegates [0]

/-- Claim C5: for every byte sequence and every plain tag (`Bitpacked`,
`Linear`, `BlockwiseLinear`), `open_from_id` constructs the concrete reader
of the matching codec directly from those bytes and wraps it in the
correspondingly named variant of the tagged union (no GCD wrapping and no
further tag reading on this branch). -/
theorem open_from_id_direct_variants {Item : Type} (bytes : List Nat) :
    @DynamicFastFieldReader.open_from_id Item bytes FastFieldCodecType.Bitpacked
      = (BitpackedCodec.open_from_bytes bytes).map
          (fun r => DynamicFastFieldReader.Bitpacked (FastFieldReaderCodecWrapper.ofReader r))
    ∧ @DynamicFastFieldReader.open_from_id Item bytes FastFieldCodecType.Linear
      = (LinearCodec.open_from_bytes bytes).map
          (fun r => DynamicFastFieldReader.Linear (FastFieldReaderCodecWrapper.ofReader r))
    ∧ @DynamicFastFieldReader.open_from_id Item bytes FastFieldCodecType.BlockwiseLinear
      = (BlockwiseLinearCodec.open_from_bytes bytes).map
          (fun r => DynamicFastFieldReader.BlockwiseLinear (FastFieldReaderCodecWrapper.ofReader r)) :=
  ⟨open_from_id_bitpacked bytes, open_from_id_linear bytes, open_from_id_blockwise bytes⟩

/-- Claim C6: for every reader successfully opened from a column the write
pipeline produced (any codec choice, with or without the GCD wrapper), and
every ordinal `i < num_vals()`, `min_value() ≤ get_val(i) ≤ max_value()`
holds; the dispatch wrapper obtains all three through the domain type's
`from_u64` mapping applied to the inner `u64` reader's results. -/
theorem opened_reader_bounds {Item : Type} [LinearOrder Item] [FastValue Item]
    (c : CodecChoice) (vals : List Nat) (hv : ∀ v ∈ vals, v < 2 ^ 64)
    (hn : vals.length < 2 ^ 64) (r : DynamicFastFieldReader Item)
    (hopen : DynamicFastFieldReader.«open» (serializeWith c vals) = .ok r) :
    ∀ i, i < num_vals r → min_value r ≤ get_val r i ∧ get_val r i ≤ max_value r := by
  obtain ⟨r', hopen', hnum', _, hbnd'⟩ := @serialize_open_roundtrip Item _ _ c vals hv hn
  have heq : r' = r := Except.ok.inj (hopen'.symm.trans hopen)
  subst heq
  intro i hi
  rw [hnum'] at hi
  exact hbnd' i hi

theorem opened_reader_bounds_witness :
    (∀ v ∈ ([10, 20, 30] : List Nat), v < 2 ^ 64)
    ∧ ([10, 20, 30] : List Nat).length < 2 ^ 64
    ∧ DynamicFastFieldReader.«open»
        (serializeWith ⟨InnerCodecChoice.linear, true⟩ [10, 20, 30])
        = .ok (openedReader (serializeWith ⟨InnerCodecChoice.linear, true⟩ [10, 20, 30]))
    ∧ (∀ i, i < num_vals (openedReader (serializeWith ⟨InnerCodecChoice.linear, true⟩ [10, 20, 30]))
        → min_value (openedReader (serializeWith ⟨InnerCodecChoice.linear, true⟩ [10, 20, 30]))
            ≤ get_val (openedReader (serializeWith ⟨InnerCodecChoice.linear, true⟩ [10, 20, 30])) i
          ∧ get_val (openedReader (serializeWith ⟨InnerCodecChoice.linear, true⟩ [10, 20, 30])) i
            ≤ max_value (openedReader (serializeWith ⟨InnerCodecChoice.linear, true⟩ [10, 20, 30]))) :=
  ⟨by decide, by decide, rfl,
    opened_reader_bounds ⟨InnerCodecChoice.linear, true⟩ [10, 20, 30]
      (by decide) (by decide) _ rfl⟩

/-- Claim C7: opening the same byte region twice yields two readers that
agree on `num_vals()`, `min_value()`, `max_value()`, and `get_val(i)` for
every ordinal (`open` is deterministic in its input bytes). -/
theorem open_deterministic {Item : Type} [LinearOrder Item] [FastValue Item]
    (bs : List Nat) (r₁ r₂ : DynamicFastFieldReader Item)
    (h₁ : DynamicFastFieldReader.«open» bs = .ok r₁)
    (h₂ : DynamicFastFieldReader.«open» bs = .ok r₂) :
    num_vals r₁ = num_vals r₂ ∧ min_value r₁ = min_value r₂
    ∧ max_value r₁ = max_value r₂ ∧ ∀ i, get_val r₁ i = get_val r₂ i := by
  have heq := Except.ok.inj (h₁.symm.trans h₂)
  subst heq
  exact ⟨rfl, rfl, rfl, fun i => rfl⟩

theorem open_deterministic_witness :
    DynamicFastFieldReader.«open» (serializeWith ⟨InnerCodecChoice.bitpacked, false⟩ [5, 6, 7])
      = .ok (openedReader (serializeWith ⟨InnerCodecChoice.bitpacked, false⟩ [5, 6, 7]))
    ∧ (num_vals (openedReader (serializeWith ⟨InnerCodecChoice.bitpacked, false⟩ [5, 6, 7]))
        = num_vals (openedReader (serializeWith ⟨InnerCodecChoice.bitpacked, false⟩ [5, 6, 7]))
      ∧ min_value (openedReader (serializeWith ⟨InnerCodecChoice.bitpacked, false⟩ [5, 6, 7]))
        = min_value (openedReader (serializeWith ⟨InnerCodecChoice.bitpacked, false⟩ [5, 6, 7]))
      ∧ max_value (openedReader (serializeWith ⟨InnerCodecChoice.bitpacked, false⟩ [5, 6, 7]))
        = max_value (openedReader (serializeWith ⟨InnerCodecChoice.bitpacked, false⟩ [5, 6, 7]))
      ∧ ∀ i, get_val (openedReader (serializeWith ⟨InnerCodecChoice.bitpacked, false⟩ [5, 6, 7])) i
        = get_val (openedReader (serializeWith ⟨InnerCodecChoice.bitpacked, false⟩ [5, 6, 7])) i) :=
  ⟨rfl, open_deterministic (serializeWith ⟨InnerCodecChoice.bitpacked, false⟩ [5, 6, 7]) _ _ rfl rfl⟩

/-- Claim C8: for every `SegmentMeta` (whose delete count does not exceed
`max_doc`, the precondition under which the `u32` subtraction is defined),
`num_docs()` equals `max_doc()` minus `num_deleted_docs()`, where
`num_deleted_docs()` is the stored delete count when delete information is
present and `0` otherwise. -/
theorem num_docs_spec (m : SegmentMeta) (h : m.num_deleted_docs ≤ m.max_doc) :
    m.num_docs = some (m.max_doc - m.num_deleted_docs)
    ∧ (m.deletes = none → m.num_deleted_docs = 0)
    ∧ (∀ d, m.deletes = some d → m.num_deleted_docs = d.num_deleted_docs) := by
  refine ⟨?_, ?_, ?_⟩
  · rw [SegmentMeta.num_docs, u32Sub, if_pos h]
  · intro hd
    rw [SegmentMeta.num_deleted_docs, hd]
    rfl
  · intro d hd
    rw [SegmentMeta.num_deleted_docs, hd]
    rfl

theorem num_docs_spec_witness :
    (SegmentMeta.mk ⟨0⟩ 10 (some ⟨3, 7⟩)).num_deleted_docs
        ≤ (SegmentMeta.mk ⟨0⟩ 10 (some ⟨3, 7⟩)).max_doc
    ∧ ((SegmentMeta.mk ⟨0⟩ 10 (some ⟨3, 7⟩)).num_docs
        = some ((SegmentMeta.mk ⟨0⟩ 10 (some ⟨3, 7⟩)).max_doc
          - (SegmentMeta.mk ⟨0⟩ 10 (some ⟨3, 7⟩)).num_deleted_docs)
      ∧ ((SegmentMeta.mk ⟨0⟩ 10 (some ⟨3, 7⟩)).deletes = none
          → (SegmentMeta.mk ⟨0⟩ 10 (some ⟨3, 7⟩)).num_deleted_docs = 0)
      ∧ (∀ d, (SegmentMeta.mk ⟨0⟩ 10 (some ⟨3, 7⟩)).deletes = some d
          → (SegmentMeta.mk ⟨0⟩ 10 (some ⟨3, 7⟩)).num_deleted_docs = d.num_deleted_docs)) :=
  ⟨by decide, num_docs_spec (SegmentMeta.mk ⟨0⟩ 10 (some ⟨3, 7⟩)) (by decide)⟩

/-- Claim C9 (counterexample): the recorded opstamp is not non-decreasing
across every sequence of successive `set_delete_meta` applications — the code
records exactly the supplied opstamp, so supplying a smaller one makes it
decrease. -/
theorem opstamp_nonmonotone_counterexample :
    ((SegmentMeta.new ⟨0⟩).set_delete_meta 1 5).delete_opstamp = some 5
    ∧ (((SegmentMeta.new ⟨0⟩).set_delete_meta 1 5).set_delete_meta 1 3).delete_opstamp = some 3
    ∧ ¬(5 ≤ 3) := by
  decide

/-- Claim C9 (amended): across every sequence of successive delete
applications in which the supplied opstamps are non-decreasing, the recorded
opstamp returned by `delete_opstamp()` is non-decreasing (the code records
exactly the supplied opstamp of each application). -/
theorem opstamp_trace_monotone (m : SegmentMeta) (ops : List (Nat × Nat))
    (h : nondecreasing (ops.map Prod.snd) = true) :
    nondecreasing (opstampTrace m ops) = true := by
  rw [opstampTrace_eq]
  exact h

theorem opstamp_trace_monotone_witness :
    nondecreasing (([(1, 2), (0, 5), (2, 5)] : List (Nat × Nat)).map Prod.snd) = true
    ∧ nondecreasing (opstampTrace (SegmentMeta.new ⟨0⟩) [(1, 2), (0, 5), (2, 5)]) = true :=
  ⟨by decide, opstamp_trace_monotone (SegmentMeta.new ⟨0⟩) [(1, 2), (0, 5), (2, 5)] (by decide)⟩

/-- Claim C10: `SegmentMeta::num_docs()` computes `max_doc - num_deleted_docs`
with unchecked `u32` subtraction, so it is well-defined (its underflow branch,
modelled as `none`, is unreachable) exactly under the precondition
`num_deleted_docs() ≤ max_doc()`. -/
theorem num_docs_welldefined_iff (m : SegmentMeta) :
    m.num_docs ≠ none ↔ m.num_deleted_docs ≤ m.max_doc := by
  rw [SegmentMeta.num_docs, u32Sub]
  by_cases h : m.num_deleted_docs ≤ m.max_doc
  · simp [h]
  · simp [h]
